import Mathlib

/-!
Verification of the RC5-Rust repository (crates rc5-block, rc5-rs and the
legacy root crate) against its natural-language specification.

Machine words of bit width B are embedded as natural numbers reduced
modulo 2 ^ B.  The translation below follows the source files:

* src/rc5-rs/src/types.rs  — word arithmetic (wrapping add/sub, data
  dependent rotations, little-endian byte serialization, P/Q constants);
* src/rc5-rs/src/rc5.rs    — key expansion, the single-block transform,
  block/byte-stream conversion;
* src/rc5-block/src/utils.rs and src/rc5-rs/src/utils.rs — PKCS#7;
* src/rc5-block/src/modes.rs and src/src/modes.rs — ECB/CBC/CTR modes;
* src/rc5-block/src/lib.rs  — the Cipher facade and hex parameter parsing.
-/

namespace RC5

/-- Wrapping addition of B-bit machine words (wrapping_add in types.rs). -/
def wadd (B x y : Nat) : Nat := (x + y) % 2 ^ B

/-- Wrapping subtraction of B-bit machine words (wrapping_sub in types.rs). -/
def wsub (B x y : Nat) : Nat := (x + (2 ^ B - y % 2 ^ B)) % 2 ^ B

/-- Rotate a B-bit word left; the amount is the value of another word reduced
modulo the bit width, matching rotate_left in types.rs (the rotation operand
is cast to u32 and the primitive rotates modulo the width, which divides
2 ^ 32 for every supported width). -/
def rotl (B x n : Nat) : Nat :=
  x % 2 ^ B % 2 ^ (B - n % B) * 2 ^ (n % B) + x % 2 ^ B / 2 ^ (B - n % B)

/-- Rotate a B-bit word right by a word value modulo the bit width
(rotate_right in types.rs). -/
def rotr (B x n : Nat) : Nat :=
  x % 2 ^ B % 2 ^ (n % B) * 2 ^ (B - n % B) + x % 2 ^ B / 2 ^ (n % B)

theorem two_pow_pos (B : Nat) : 0 < 2 ^ B := Nat.pos_pow_of_pos B (by omega)

theorem wadd_lt (B x y : Nat) : wadd B x y < 2 ^ B :=
  Nat.mod_lt _ (two_pow_pos B)

theorem wsub_lt (B x y : Nat) : wsub B x y < 2 ^ B :=
  Nat.mod_lt _ (two_pow_pos B)

theorem wadd_small (B x y : Nat) (h : x + y < 2 ^ B) : wadd B x y = x + y :=
  Nat.mod_eq_of_lt h

/-- Wrapping subtraction undoes wrapping addition of the same word. -/
theorem wsub_wadd (B x s : Nat) (hx : x < 2 ^ B) : wsub B (wadd B x s) s = x := by
  unfold wadd wsub
  have hM : 0 < 2 ^ B := two_pow_pos B
  have hs : s % 2 ^ B < 2 ^ B := Nat.mod_lt _ hM
  rw [Nat.mod_add_mod]
  have h1 : 2 ^ B * (s / 2 ^ B) + s % 2 ^ B = s := Nat.div_add_mod s (2 ^ B)
  have h2 : x + s + (2 ^ B - s % 2 ^ B) = x + 2 ^ B * (s / 2 ^ B) + 2 ^ B := by
    omega
  rw [h2, Nat.add_mod_right, Nat.add_mul_mod_self_left, Nat.mod_eq_of_lt hx]

theorem combine_lt (d e lo hi : Nat) (hlo : lo < d) (hhi : hi < e) :
    lo * e + hi < d * e := by
  calc lo * e + hi < lo * e + e := by omega
    _ = (lo + 1) * e := by ring
    _ ≤ d * e := Nat.mul_le_mul_right _ (by omega)

theorem pow_split (B k : Nat) (hk : k ≤ B) : 2 ^ (B - k) * 2 ^ k = 2 ^ B := by
  rw [← pow_add]; congr 1; omega

theorem rotl_lt (B x n : Nat) (hB : 0 < B) : rotl B x n < 2 ^ B := by
  unfold rotl
  have hk : n % B < B := Nat.mod_lt _ hB
  have hsplit := pow_split B (n % B) (le_of_lt hk)
  have hx : x % 2 ^ B < 2 ^ B := Nat.mod_lt _ (two_pow_pos B)
  have hlo : x % 2 ^ B % 2 ^ (B - n % B) < 2 ^ (B - n % B) :=
    Nat.mod_lt _ (two_pow_pos _)
  have hhi : x % 2 ^ B / 2 ^ (B - n % B) < 2 ^ (n % B) := by
    rw [Nat.div_lt_iff_lt_mul (two_pow_pos _), Nat.mul_comm, hsplit]
    exact hx
  calc x % 2 ^ B % 2 ^ (B - n % B) * 2 ^ (n % B) + x % 2 ^ B / 2 ^ (B - n % B)
      < 2 ^ (B - n % B) * 2 ^ (n % B) := combine_lt _ _ _ _ hlo hhi
    _ = 2 ^ B := hsplit

/-- Rotating right undoes rotating left by the same (data-dependent) amount. -/
theorem rotr_rotl (B x n : Nat) (hB : 0 < B) (hx : x < 2 ^ B) :
    rotr B (rotl B x n) n = x := by
  have hk : n % B < B := Nat.mod_lt _ hB
  have hx' : x % 2 ^ B = x := Nat.mod_eq_of_lt hx
  have hde : 2 ^ (B - n % B) * 2 ^ (n % B) = 2 ^ B := pow_split B _ (le_of_lt hk)
  have hdpos : 0 < 2 ^ (B - n % B) := two_pow_pos _
  have hepos : 0 < 2 ^ (n % B) := two_pow_pos _
  have hlo : x % 2 ^ (B - n % B) < 2 ^ (B - n % B) := Nat.mod_lt _ hdpos
  have hhi : x / 2 ^ (B - n % B) < 2 ^ (n % B) := by
    rw [Nat.div_lt_iff_lt_mul hdpos, Nat.mul_comm, hde]
    exact hx
  have hylt : x % 2 ^ (B - n % B) * 2 ^ (n % B) + x / 2 ^ (B - n % B) < 2 ^ B :=
    hde ▸ combine_lt _ _ _ _ hlo hhi
  have hy_val : rotl B x n
      = x % 2 ^ (B - n % B) * 2 ^ (n % B) + x / 2 ^ (B - n % B) := by
    unfold rotl; rw [hx']
  unfold rotr
  rw [hy_val, Nat.mod_eq_of_lt hylt]
  have h1 : (x % 2 ^ (B - n % B) * 2 ^ (n % B) + x / 2 ^ (B - n % B)) % 2 ^ (n % B)
      = x / 2 ^ (B - n % B) := by
    rw [Nat.mul_comm (x % 2 ^ (B - n % B)) (2 ^ (n % B)), Nat.mul_add_mod,
      Nat.mod_eq_of_lt hhi]
  have h2 : (x % 2 ^ (B - n % B) * 2 ^ (n % B) + x / 2 ^ (B - n % B)) / 2 ^ (n % B)
      = x % 2 ^ (B - n % B) := by
    rw [Nat.mul_comm, Nat.mul_add_div hepos, Nat.div_eq_of_lt hhi, Nat.add_zero]
  rw [h1, h2, Nat.mul_comm]
  exact Nat.div_add_mod x _

theorem xor_lt (B x y : Nat) (hx : x < 2 ^ B) (hy : y < 2 ^ B) :
    x ^^^ y < 2 ^ B :=
  Nat.xor_lt_two_pow hx hy

theorem xor_xor_cancel (p b : Nat) : (p ^^^ b) ^^^ p = b := by
  rw [Nat.xor_comm p b, Nat.xor_assoc, Nat.xor_self, Nat.xor_zero]

theorem xor_cancel_right (a b : Nat) : (b ^^^ a) ^^^ a = b := by
  rw [Nat.xor_assoc, Nat.xor_self, Nat.xor_zero]

/-! ### Little-endian byte serialization (to_le_bytes / from_le_bytes) -/

/-- Serialize a word to wb little-endian bytes (to_bytes_slice in types.rs). -/
def toLEBytes : (wb x : Nat) → List Nat
  | 0, _ => []
  | wb + 1, x => x % 256 :: toLEBytes wb (x / 256)

/-- Decode a little-endian byte slice to a word (from_bytes_slice in
types.rs; callers always pass exactly wb bytes). -/
def fromLEBytes : List Nat → Nat
  | [] => 0
  | b :: rest => b + 256 * fromLEBytes rest

theorem toLEBytes_length (wb x : Nat) : (toLEBytes wb x).length = wb := by
  induction wb generalizing x with
  | zero => rfl
  | succ wb ih => simp [toLEBytes, ih]

theorem toLEBytes_bytes (wb x : Nat) : ∀ b ∈ toLEBytes wb x, b < 256 := by
  induction wb generalizing x with
  | zero => simp [toLEBytes]
  | succ wb ih =>
    intro b hb
    rcases List.mem_cons.mp hb with h | h
    · subst h; exact Nat.mod_lt _ (by omega)
    · exact ih _ _ h

theorem fromLEBytes_lt (l : List Nat) (h : ∀ b ∈ l, b < 256) :
    fromLEBytes l < 2 ^ (8 * l.length) := by
  induction l with
  | nil => simp [fromLEBytes]
  | cons b rest ih =>
    have hb : b < 256 := h b (by simp)
    have hrest := ih (fun x hx => h x (by simp [hx]))
    simp only [fromLEBytes, List.length_cons]
    have : 2 ^ (8 * (rest.length + 1)) = 256 * 2 ^ (8 * rest.length) := by
      rw [Nat.mul_add, pow_add]; ring
    rw [this]
    omega

theorem fromLEBytes_toLEBytes (wb x : Nat) (hx : x < 2 ^ (8 * wb)) :
    fromLEBytes (toLEBytes wb x) = x := by
  induction wb generalizing x with
  | zero => simp at hx; simp [toLEBytes, fromLEBytes, hx]
  | succ wb ih =>
    simp only [toLEBytes, fromLEBytes]
    have hdiv : x / 256 < 2 ^ (8 * wb) := by
      rw [Nat.div_lt_iff_lt_mul (by omega : (0 : Nat) < 256)]
      calc x < 2 ^ (8 * (wb + 1)) := hx
        _ = 2 ^ (8 * wb) * 256 := by rw [Nat.mul_add, pow_add]; ring
    rw [ih _ hdiv]
    omega

theorem toLEBytes_fromLEBytes (l : List Nat) (h : ∀ b ∈ l, b < 256) :
    toLEBytes l.length (fromLEBytes l) = l := by
  induction l with
  | nil => rfl
  | cons b rest ih =>
    have hb : b < 256 := h b (by simp)
    simp only [List.length_cons, toLEBytes, fromLEBytes]
    have hmod : (b + 256 * fromLEBytes rest) % 256 = b := by omega
    have hdiv : (b + 256 * fromLEBytes rest) / 256 = fromLEBytes rest := by
      omega
    rw [hmod, hdiv, ih (fun x hx => h x (by simp [hx]))]

/-! ### Single-block transform (RC5ControlBlock encrypt/decrypt, rc5.rs) -/

/-- One encryption round, r running from 1 to rounds (rc5.rs lines 76-79). -/
def encRound (B : Nat) (S : List Nat) (r : Nat) (ab : Nat × Nat) : Nat × Nat :=
  let a := wadd B (rotl B (ab.1 ^^^ ab.2) ab.2) (S.getD (2 * r) 0)
  let b := wadd B (rotl B (ab.2 ^^^ a) a) (S.getD (2 * r + 1) 0)
  (a, b)

/-- One decryption round, the algebraic inverse (rc5.rs lines 88-98). -/
def decRound (B : Nat) (S : List Nat) (r : Nat) (ab : Nat × Nat) : Nat × Nat :=
  let b := rotr B (wsub B ab.2 (S.getD (2 * r + 1) 0)) ab.1 ^^^ ab.1
  let a := rotr B (wsub B ab.1 (S.getD (2 * r) 0)) b ^^^ b
  (a, b)

/-- RC5ControlBlock::encrypt — pre-whitening with S[0], S[1], then rounds
1..=rounds in ascending order. -/
def encryptBlock (B : Nat) (S : List Nat) (rounds : Nat) (pt : Nat × Nat) :
    Nat × Nat :=
  (List.range rounds).foldl (fun ab i => encRound B S (i + 1) ab)
    (wadd B pt.1 (S.getD 0 0), wadd B pt.2 (S.getD 1 0))

/-- RC5ControlBlock::decrypt — rounds in descending order, then subtracting
S[1], S[0]. -/
def decryptBlock (B : Nat) (S : List Nat) (rounds : Nat) (ct : Nat × Nat) :
    Nat × Nat :=
  let ab := (List.range rounds).reverse.foldl (fun ab i => decRound B S (i + 1) ab) ct
  (wsub B ab.1 (S.getD 0 0), wsub B ab.2 (S.getD 1 0))

theorem encRound_lt (B : Nat) (S : List Nat) (r : Nat) (ab : Nat × Nat) :
    (encRound B S r ab).1 < 2 ^ B ∧ (encRound B S r ab).2 < 2 ^ B :=
  ⟨wadd_lt _ _ _, wadd_lt _ _ _⟩

theorem decRound_encRound (B : Nat) (S : List Nat) (r : Nat) (ab : Nat × Nat)
    (hB : 0 < B) (ha : ab.1 < 2 ^ B) (hb : ab.2 < 2 ^ B) :
    decRound B S r (encRound B S r ab) = ab := by
  obtain ⟨a0, b0⟩ := ab
  simp only [encRound, decRound]
  have hxab : a0 ^^^ b0 < 2 ^ B := xor_lt B _ _ ha hb
  have hrot1 : rotl B (a0 ^^^ b0) b0 < 2 ^ B := rotl_lt _ _ _ hB
  have ha1 : wadd B (rotl B (a0 ^^^ b0) b0) (S.getD (2 * r) 0) < 2 ^ B :=
    wadd_lt _ _ _
  have hxb : b0 ^^^ wadd B (rotl B (a0 ^^^ b0) b0) (S.getD (2 * r) 0) < 2 ^ B :=
    xor_lt B _ _ hb ha1
  have hrot2 : rotl B (b0 ^^^ wadd B (rotl B (a0 ^^^ b0) b0) (S.getD (2 * r) 0))
      (wadd B (rotl B (a0 ^^^ b0) b0) (S.getD (2 * r) 0)) < 2 ^ B :=
    rotl_lt _ _ _ hB
  rw [wsub_wadd B _ _ hrot2, rotr_rotl B _ _ hB hxb, xor_cancel_right,
    wsub_wadd B _ _ hrot1, rotr_rotl B _ _ hB hxab, xor_cancel_right]

theorem encRounds_lt (B : Nat) (S : List Nat) (l : List Nat) (ab : Nat × Nat)
    (ha : ab.1 < 2 ^ B) (hb : ab.2 < 2 ^ B) :
    (l.foldl (fun ab i => encRound B S (i + 1) ab) ab).1 < 2 ^ B ∧
    (l.foldl (fun ab i => encRound B S (i + 1) ab) ab).2 < 2 ^ B := by
  induction l generalizing ab with
  | nil => exact ⟨ha, hb⟩
  | cons i rest ih =>
    exact ih _ (encRound_lt B S (i + 1) ab).1 (encRound_lt B S (i + 1) ab).2

theorem decRounds_encRounds (B : Nat) (S : List Nat) (l : List Nat)
    (ab : Nat × Nat) (hB : 0 < B) (ha : ab.1 < 2 ^ B) (hb : ab.2 < 2 ^ B) :
    l.reverse.foldl (fun ab i => decRound B S (i + 1) ab)
      (l.foldl (fun ab i => encRound B S (i + 1) ab) ab) = ab := by
  induction l generalizing ab with
  | nil => rfl
  | cons i rest ih =>
    simp only [List.foldl_cons, List.reverse_cons, List.foldl_append,
      List.foldl_cons, List.foldl_nil]
    rw [ih (encRound B S (i + 1) ab) (encRound_lt B S (i + 1) ab).1
      (encRound_lt B S (i + 1) ab).2]
    exact decRound_encRound B S (i + 1) ab hB ha hb

/-- The single-block transform is invertible bit-for-bit, for any S-table,
any round count (including zero) and any positive width. -/
theorem decryptBlock_encryptBlock (B : Nat) (S : List Nat) (rounds : Nat)
    (x : Nat × Nat) (hB : 0 < B) (h1 : x.1 < 2 ^ B) (h2 : x.2 < 2 ^ B) :
    decryptBlock B S rounds (encryptBlock B S rounds x) = x := by
  unfold encryptBlock decryptBlock
  rw [decRounds_encRounds B S (List.range rounds)
    (wadd B x.1 (S.getD 0 0), wadd B x.2 (S.getD 1 0)) hB
    (wadd_lt _ _ _) (wadd_lt _ _ _)]
  simp only
  rw [wsub_wadd B _ _ h1, wsub_wadd B _ _ h2]

theorem encryptBlock_lt (B : Nat) (S : List Nat) (rounds : Nat)
    (pt : Nat × Nat) :
    (encryptBlock B S rounds pt).1 < 2 ^ B ∧
    (encryptBlock B S rounds pt).2 < 2 ^ B :=
  encRounds_lt B S (List.range rounds) _ (wadd_lt _ _ _) (wadd_lt _ _ _)

/-! ### Key expansion (expand_key, rc5.rs lines 198-248) -/

/-- Magic constant P per word width in bits (types.rs magic_consts macro;
the u128 pair is transcribed exactly as the source writes it). -/
def Pconst (B : Nat) : Nat :=
  if B = 16 then 0xb7e1
  else if B = 32 then 0xb7e15163
  else if B = 64 then 0xb7e151628aed2a6b
  else if B = 128 then 0x9E3779B97F4A7C15F39CC0605CEDC835
  else 0

/-- Magic constant Q per word width in bits (types.rs magic_consts macro). -/
def Qconst (B : Nat) : Nat :=
  if B = 16 then 0x9e37
  else if B = 32 then 0x9e3779b9
  else if B = 64 then 0x9e3779b97f4a7c15
  else if B = 128 then 0xB7E151628AED2A6ABF7158809CF4F3C7
  else 0

/-- Byte-packing loop of expand_key: key bytes are folded into key_words by
iterating from the last byte index to the first, rotating the target word
left by 8 bits and wrapping-adding the byte (rc5.rs lines 207-212).
wb is the word byte width; the word has B = 8 * wb bits. -/
def packKey (wb : Nat) (key : List Nat) : List Nat :=
  let keyLength := max key.length 1
  let expandedLength := (keyLength + wb - 1) / wb
  (List.range keyLength).foldr
    (fun index kw =>
      kw.set (index / wb)
        (wadd (8 * wb) (rotl (8 * wb) (kw.getD (index / wb) 0) 8)
          (key.getD index 0)))
    (List.replicate expandedLength 0)

/-- Seeding loop of expand_key: S[0] = P and S[i] = S[i-1] + Q with
wraparound, i ascending from 1 (rc5.rs lines 217-222). -/
def seedTable (B t : Nat) : List Nat :=
  (List.range' 1 (t - 1)).foldl
    (fun s i => s.set i (wadd B (s.getD (i - 1) 0) (Qconst B)))
    ((List.replicate t 0).set 0 (Pconst B))

/-- State of the mixing loop of expand_key: S-table, key words, indices i, j
and accumulators a, b. -/
structure MixState where
  s : List Nat
  kw : List Nat
  i : Nat
  j : Nat
  a : Nat
  b : Nat

/-- One iteration of the mixing loop (rc5.rs lines 229-244): a and S[i] get
(S[i]+a+b) rotated left by 3; b and key_words[j] get (key_words[j]+a+b)
rotated left by the word value a+b; i, j advance modulo the table sizes. -/
def mixStep (B : Nat) (st : MixState) : MixState :=
  let a := rotl B (wadd B (wadd B (st.s.getD st.i 0) st.a) st.b) 3
  let b := rotl B (wadd B (wadd B (st.kw.getD st.j 0) a) st.b) (wadd B a st.b)
  { s := st.s.set st.i a
    kw := st.kw.set st.j b
    i := (st.i + 1) % st.s.length
    j := (st.j + 1) % st.kw.length
    a := a
    b := b }

/-- Iterate the mixing step a fixed number of times. -/
def mixLoop (B : Nat) : Nat → MixState → MixState
  | 0, st => st
  | n + 1, st => mixLoop B n (mixStep B st)

/-- expand_key (rc5.rs lines 198-248): pack the key, seed the S-table with
P and Q, then run 3 * max(table_size, key_word_count) mixing iterations;
only the S-table is returned, key_words is scratch. -/
def expandKey (wb : Nat) (key : List Nat) (rounds : Nat) : List Nat :=
  let keyWords := packKey wb key
  let tableSize := 2 * (rounds + 1)
  let st := mixLoop (8 * wb) (3 * max tableSize keyWords.length)
    { s := seedTable (8 * wb) tableSize
      kw := keyWords
      i := 0
      j := 0
      a := 0
      b := 0 }
  st.s

/-! ### Block/byte-stream conversion (generate_blocks and
generate_bytes_stream, rc5.rs lines 106-125). -/

/-- generate_blocks: split a byte vector into two-word blocks via
chunks_exact(2 * wb), decoding each word little-endian; a trailing chunk of
fewer than 2 * wb bytes produces no block. -/
def generateBlocks (wb : Nat) (s : List Nat) : List (Nat × Nat) :=
  if 2 * wb = 0 ∨ s.length < 2 * wb then []
  else
    (fromLEBytes (s.take wb), fromLEBytes ((s.drop wb).take wb))
      :: generateBlocks wb (s.drop (2 * wb))
termination_by s.length
decreasing_by
  simp only [List.length_drop]
  omega

/-- generate_bytes_stream: serialize each block as word0 little-endian
followed by word1 little-endian. -/
def generateBytesStream (wb : Nat) : List (Nat × Nat) → List Nat
  | [] => []
  | blk :: rest => toLEBytes wb blk.1 ++ toLEBytes wb blk.2 ++ generateBytesStream wb rest

/-! ### Errors (the Reason enum, rc5-block/src/lib.rs lines 74-92) -/

/-- Failure reasons reported by the cipher.  Payloads that only carry
diagnostic text are dropped. -/
inductive Reason where
  | WordSize : Reason
  | Padding : Reason
  | KeyTooLong : Nat → Nat → Reason
  | InvalidKey : Reason
  | InvalidRounds : Nat → Reason
  | ParseHex : Reason
  | IVinvalid : Nat → Reason
  | NonceInvalid : Nat → Reason
deriving DecidableEq, Repr

/-! ### PKCS#7 padding -/

/-- pkcs7 from rc5-block/src/utils.rs (lines 82-110).  The buffer is a byte
vector; the result carries the rewritten buffer together with the returned
count (the pre-pad remainder when padding, the removed pad length when
unpadding).  Bytes appended by padding go through the u8 cast of the source
(pad_count as u8). -/
def pkcs7 (buf : List Nat) (bs : Nat) : Bool → Except Reason (List Nat × Nat)
  | true =>
    let rem := buf.length % bs
    let pc := if rem > 0 then bs - rem else bs
    Except.ok (buf ++ List.replicate pc (pc % 256), rem)
  | false =>
    let len := buf.length
    if len = 0 ∨ len % bs ≠ 0 then Except.error Reason.Padding
    else
      let padLen := (buf.getLast?).getD 0
      if padLen = 0 ∨ padLen > bs then Except.error Reason.Padding
      else if ¬ ((buf.drop (len - padLen)).all (fun e => e == padLen)) then
        Except.error Reason.Padding
      else Except.ok (buf.take (len - padLen), padLen)

/-- pkcs7 from rc5-rs/src/utils.rs (lines 38-63).  This older copy reads
buf.last().unwrap() before checking that the buffer is non-empty, so the
unpad branch panics on an empty buffer; a panic is modelled as none. -/
def pkcs7Rs (buf : List Nat) (bs : Nat) :
    Bool → Option (Except Reason (List Nat × Nat))
  | true =>
    let rem := buf.length % bs
    let pc := if rem > 0 then bs - rem else bs
    some (Except.ok (buf ++ List.replicate pc (pc % 256), rem))
  | false =>
    let len := buf.length
    match buf.getLast? with
    | none => none
    | some padLen =>
      if len = 0 ∨ len % bs ≠ 0 then some (Except.error Reason.Padding)
      else if padLen = 0 ∨ padLen > bs then some (Except.error Reason.Padding)
      else if ¬ ((buf.drop (len - padLen)).all (fun e => e == padLen)) then
        some (Except.error Reason.Padding)
      else some (Except.ok (buf.take (len - padLen), padLen))

/-! ### Modes of operation (rc5-block/src/modes.rs) -/

/-- The three operation modes; blocks are pairs of words (N = 2 for RC5). -/
inductive OperationMode where
  | ECB : OperationMode
  | CBC : Nat × Nat → OperationMode
  | CTR : Nat × Nat → OperationMode

/-- ecb_encrypt: encrypt each block independently. -/
def ecbEncrypt (B : Nat) (S : List Nat) (rounds : Nat)
    (blocks : List (Nat × Nat)) : List (Nat × Nat) :=
  blocks.map (encryptBlock B S rounds)

/-- ecb_decrypt: decrypt each block independently. -/
def ecbDecrypt (B : Nat) (S : List Nat) (rounds : Nat)
    (blocks : List (Nat × Nat)) : List (Nat × Nat) :=
  blocks.map (decryptBlock B S rounds)

/-- cbc_encrypt (modes.rs lines 86-109): xor the plaintext block into prev
element-wise, encrypt, emit, and chain on the emitted ciphertext. -/
def cbcEncrypt (B : Nat) (S : List Nat) (rounds : Nat) :
    Nat × Nat → List (Nat × Nat) → List (Nat × Nat)
  | _, [] => []
  | prev, blk :: rest =>
    let x := (prev.1 ^^^ blk.1, prev.2 ^^^ blk.2)
    let ct := encryptBlock B S rounds x
    ct :: cbcEncrypt B S rounds ct rest

/-- cbc_decrypt (modes.rs lines 120-143): decrypt, xor with prev, emit, and
chain on the original ciphertext block. -/
def cbcDecrypt (B : Nat) (S : List Nat) (rounds : Nat) :
    Nat × Nat → List (Nat × Nat) → List (Nat × Nat)
  | _, [] => []
  | prev, blk :: rest =>
    let d := decryptBlock B S rounds blk
    (d.1 ^^^ prev.1, d.2 ^^^ prev.2) :: cbcDecrypt B S rounds blk rest

/-- ctr_encrypt (modes.rs lines 154-178): for each input chunk of up to
2 * wb bytes, encrypt the counter block, serialize it little-endian, xor it
byte-for-byte against the chunk (only as many keystream bytes as the chunk
needs), then wrapping-increment only the last word of the counter block.
The recursion consumes s.drop (2 * wb); for the supported widths wb is
positive, so rest.drop (2 * wb - 1) is that same suffix. -/
def ctrEncrypt (wb : Nat) (S : List Nat) (rounds : Nat) :
    Nat × Nat → List Nat → List Nat
  | _, [] => []
  | nc, b :: rest =>
    let ks := toLEBytes wb (encryptBlock (8 * wb) S rounds nc).1 ++
      toLEBytes wb (encryptBlock (8 * wb) S rounds nc).2
    List.zipWith (fun x y => x ^^^ y) ((b :: rest).take (2 * wb)) ks ++
      ctrEncrypt wb S rounds (nc.1, wadd (8 * wb) nc.2 1) (rest.drop (2 * wb - 1))
termination_by _ s => s.length
decreasing_by
  simp only [List.length_cons, List.length_drop]
  omega

/-- ctr_decrypt (modes.rs lines 189-202): counter-mode decryption repeats
the encryption with the same parameters. -/
def ctrDecrypt (wb : Nat) (S : List Nat) (rounds : Nat) (nc : Nat × Nat)
    (s : List Nat) : List Nat :=
  ctrEncrypt wb S rounds nc s

/-- ctr_encrypt from the legacy root crate (src/src/modes.rs lines 89-111):
block-level counter mode; each input block is xored with the encryption of
the counter block, whose last word is then wrapping-incremented. -/
def ctrEncryptBlocksSrc (B : Nat) (S : List Nat) (rounds : Nat) :
    Nat × Nat → List (Nat × Nat) → List (Nat × Nat)
  | _, [] => []
  | nc, blk :: rest =>
    let e := encryptBlock B S rounds nc
    (blk.1 ^^^ e.1, blk.2 ^^^ e.2)
      :: ctrEncryptBlocksSrc B S rounds (nc.1, wadd B nc.2 1) rest

/-- ctr_decrypt from the legacy root crate (src/src/modes.rs lines 113-135):
identical to its ctr_encrypt except that the keystream block is produced by
DECRYPTING the counter block. -/
def ctrDecryptBlocksSrc (B : Nat) (S : List Nat) (rounds : Nat) :
    Nat × Nat → List (Nat × Nat) → List (Nat × Nat)
  | _, [] => []
  | nc, blk :: rest =>
    let e := decryptBlock B S rounds nc
    (blk.1 ^^^ e.1, blk.2 ^^^ e.2)
      :: ctrDecryptBlocksSrc B S rounds (nc.1, wadd B nc.2 1) rest

/-! ### Cipher facade (rc5-block/src/lib.rs) -/

/-- Cipher::encrypt (lib.rs lines 151-175): pad and run the block mode for
ECB/CBC, or stream the raw bytes through CTR; a padding failure is
propagated immediately by the question-mark operator. -/
def cipherEncrypt (wb : Nat) (S : List Nat) (rounds : Nat) (pt : List Nat)
    (mode : OperationMode) : Except Reason (List Nat) :=
  match mode with
  | OperationMode.ECB =>
    match pkcs7 pt (2 * wb) true with
    | Except.error e => Except.error e
    | Except.ok padded =>
      Except.ok (generateBytesStream wb
        (ecbEncrypt (8 * wb) S rounds (generateBlocks wb padded.1)))
  | OperationMode.CBC iv =>
    match pkcs7 pt (2 * wb) true with
    | Except.error e => Except.error e
    | Except.ok padded =>
      Except.ok (generateBytesStream wb
        (cbcEncrypt (8 * wb) S rounds iv (generateBlocks wb padded.1)))
  | OperationMode.CTR nc => Except.ok (ctrEncrypt wb S rounds nc pt)

/-- Cipher::decrypt (lib.rs lines 191-221): run the block mode and unpad
for ECB/CBC, or stream the raw bytes through CTR. -/
def cipherDecrypt (wb : Nat) (S : List Nat) (rounds : Nat) (ct : List Nat)
    (mode : OperationMode) : Except Reason (List Nat) :=
  match mode with
  | OperationMode.ECB =>
    match pkcs7 (generateBytesStream wb
        (ecbDecrypt (8 * wb) S rounds (generateBlocks wb ct))) (2 * wb) false with
    | Except.error e => Except.error e
    | Except.ok unpadded => Except.ok unpadded.1
  | OperationMode.CBC iv =>
    match pkcs7 (generateBytesStream wb
        (cbcDecrypt (8 * wb) S rounds iv (generateBlocks wb ct))) (2 * wb) false with
    | Except.error e => Except.error e
    | Except.ok unpadded => Except.ok unpadded.1
  | OperationMode.CTR nc => Except.ok (ctrDecrypt wb S rounds nc ct)

/-! ### Hex parameter parsing (rc5-block/src/lib.rs lines 227-270) -/

/-- Value of one hex digit character, as in the hex crate. -/
def hexVal (c : Char) : Option Nat :=
  if 48 ≤ c.toNat ∧ c.toNat ≤ 57 then some (c.toNat - 48)
  else if 97 ≤ c.toNat ∧ c.toNat ≤ 102 then some (c.toNat - 87)
  else if 65 ≤ c.toNat ∧ c.toNat ≤ 70 then some (c.toNat - 55)
  else none

/-- hex::decode: a string of hex digit pairs to bytes; odd length or an
invalid digit is a parse failure, surfaced as Reason.ParseHex through the
From conversion in lib.rs. -/
def hexDecode : List Char → Except Reason (List Nat)
  | [] => Except.ok []
  | [_] => Except.error Reason.ParseHex
  | c1 :: c2 :: rest =>
    match hexVal c1, hexVal c2 with
    | some h, some l =>
      match hexDecode rest with
      | Except.ok bs => Except.ok ((16 * h + l) :: bs)
      | Except.error e => Except.error e
    | _, _ => Except.error Reason.ParseHex

/-- Cipher::parse_iv_from_hex (lib.rs lines 227-240): decode, reject with
IVinvalid when the byte count differs from the block size, then take the
last generated block; the unwrap of last() is modelled as none on panic. -/
def parseIvFromHex (wb : Nat) (ivHex : List Char) :
    Option (Except Reason (Nat × Nat)) :=
  match hexDecode ivHex with
  | Except.error e => some (Except.error e)
  | Except.ok ivBytes =>
    let bs := 2 * wb
    if ivBytes.length ≠ bs then some (Except.error (Reason.IVinvalid bs))
    else
      match (generateBlocks wb ivBytes).getLast? with
      | some blk => some (Except.ok blk)
      | none => none

/-- Cipher::parse_nonce_counter_from_hex (lib.rs lines 247-270): decode both
strings, bail with NonceInvalid only when BOTH decoded lengths differ from
the word size (the source tests nonce_bytes.len() != ws AND
counter_bytes.len() != ws), then concatenate and take the last generated
block; the unwrap of last() is modelled as none on panic. -/
def parseNonceCounterFromHex (wb : Nat) (nonceHex counterHex : List Char) :
    Option (Except Reason (Nat × Nat)) :=
  match hexDecode nonceHex with
  | Except.error e => some (Except.error e)
  | Except.ok nonceBytes =>
    match hexDecode counterHex with
    | Except.error e => some (Except.error e)
    | Except.ok counterBytes =>
      let ws := wb
      if nonceBytes.length ≠ ws ∧ counterBytes.length ≠ ws then
        some (Except.error (Reason.NonceInvalid ws))
      else
        match (generateBlocks wb (nonceBytes ++ counterBytes)).getLast? with
        | some blk => some (Except.ok blk)
        | none => none

/-- Upper-case hex digit of a value below 16 (hex::encode_upper). -/
def hexDigitU (n : Nat) : Char :=
  if n < 10 then Char.ofNat (48 + n) else Char.ofNat (55 + n)

/-- hex::encode_upper over a byte vector. -/
def encodeUpper (bytes : List Nat) : String :=
  String.mk (bytes.foldr (fun b acc => hexDigitU (b / 16) :: hexDigitU (b % 16) :: acc) [])

/-! ### Lemmas about block/stream conversion -/

theorem generateBlocks_nil (wb : Nat) : generateBlocks wb [] = [] := by
  rw [generateBlocks]
  simp

theorem generateBlocks_step (wb : Nat) (s : List Nat) (hwb : 0 < wb)
    (hs : 2 * wb ≤ s.length) :
    generateBlocks wb s =
      (fromLEBytes (s.take wb), fromLEBytes ((s.drop wb).take wb))
        :: generateBlocks wb (s.drop (2 * wb)) := by
  rw [generateBlocks]
  rw [if_neg (by omega)]

theorem generateBlocks_short (wb : Nat) (s : List Nat) (hs : s.length < 2 * wb) :
    generateBlocks wb s = [] := by
  rw [generateBlocks]
  rw [if_pos (Or.inr hs)]

theorem generateBytesStream_length (wb : Nat) (blocks : List (Nat × Nat)) :
    (generateBytesStream wb blocks).length = 2 * wb * blocks.length := by
  induction blocks with
  | nil => simp [generateBytesStream]
  | cons blk rest ih =>
    simp [generateBytesStream, toLEBytes_length, ih]
    ring

theorem generateBytesStream_bytes (wb : Nat) (blocks : List (Nat × Nat)) :
    ∀ b ∈ generateBytesStream wb blocks, b < 256 := by
  induction blocks with
  | nil => simp [generateBytesStream]
  | cons blk rest ih =>
    intro b hb
    simp only [generateBytesStream, List.mem_append] at hb
    rcases hb with (h | h) | h
    · exact toLEBytes_bytes _ _ _ h
    · exact toLEBytes_bytes _ _ _ h
    · exact ih _ h

theorem append_take_drop_eq (l1 l2 : List Nat) (n : Nat) (h : l1.length = n) :
    (l1 ++ l2).take n = l1 ∧ (l1 ++ l2).drop n = l2 := by
  subst h
  exact ⟨List.take_left l1 l2, List.drop_left l1 l2⟩

/-- Splitting a serialized block stream recovers the blocks, provided every
word fits its width. -/
theorem generateBlocks_generateBytesStream (wb : Nat) (hwb : 0 < wb)
    (blocks : List (Nat × Nat))
    (hb : ∀ blk ∈ blocks, blk.1 < 2 ^ (8 * wb) ∧ blk.2 < 2 ^ (8 * wb)) :
    generateBlocks wb (generateBytesStream wb blocks) = blocks := by
  induction blocks with
  | nil => simp [generateBytesStream, generateBlocks_nil]
  | cons blk rest ih =>
    have hblk := hb blk (by simp)
    have hlen1 : (toLEBytes wb blk.1).length = wb := toLEBytes_length _ _
    have hlen2 : (toLEBytes wb blk.2).length = wb := toLEBytes_length _ _
    have hrest : ∀ b ∈ rest, b.1 < 2 ^ (8 * wb) ∧ b.2 < 2 ^ (8 * wb) :=
      fun b h => hb b (by simp [h])
    have hslen : (generateBytesStream wb (blk :: rest)).length =
        2 * wb * (rest.length + 1) := by
      rw [generateBytesStream_length]; simp
    rw [generateBlocks_step wb _ hwb
      (by rw [hslen]; exact Nat.le_mul_of_pos_right _ (by omega))]
    simp only [generateBytesStream]
    rw [show toLEBytes wb blk.1 ++ toLEBytes wb blk.2 ++ generateBytesStream wb rest
      = toLEBytes wb blk.1 ++ (toLEBytes wb blk.2 ++ generateBytesStream wb rest)
      from List.append_assoc _ _ _]
    have e1 := (append_take_drop_eq (toLEBytes wb blk.1)
      (toLEBytes wb blk.2 ++ generateBytesStream wb rest) wb hlen1).1
    have e2 := (append_take_drop_eq (toLEBytes wb blk.1)
      (toLEBytes wb blk.2 ++ generateBytesStream wb rest) wb hlen1).2
    have e3 := (append_take_drop_eq (toLEBytes wb blk.2)
      (generateBytesStream wb rest) wb hlen2).1
    have e4 : (toLEBytes wb blk.1 ++ (toLEBytes wb blk.2 ++ generateBytesStream wb rest)).drop (2 * wb)
        = generateBytesStream wb rest := by
      rw [← List.append_assoc]
      have hl : (toLEBytes wb blk.1 ++ toLEBytes wb blk.2).length = 2 * wb := by
        rw [List.length_append, hlen1, hlen2]; omega
      exact (append_take_drop_eq _ _ (2 * wb) hl).2
    rw [e1, e2, e3, e4, fromLEBytes_toLEBytes _ _ hblk.1,
      fromLEBytes_toLEBytes _ _ hblk.2, ih hrest]

/-- Serializing the blocks of an aligned byte stream recovers the stream. -/
theorem generateBytesStream_generateBlocks (wb : Nat) (hwb : 0 < wb) :
    ∀ s : List Nat, s.length % (2 * wb) = 0 → (∀ b ∈ s, b < 256) →
    generateBytesStream wb (generateBlocks wb s) = s := by
  intro s
  generalize hn : s.length = n
  induction n using Nat.strong_induction_on generalizing s with
  | _ n ih =>
    subst hn
    intro haligned hbytes
    by_cases hlen : s.length < 2 * wb
    · have : s.length = 0 := by
        rcases Nat.eq_zero_or_pos s.length with h | h
        · exact h
        · exfalso
          have := Nat.le_of_dvd h (Nat.dvd_of_mod_eq_zero haligned)
          omega
      have : s = [] := List.eq_nil_of_length_eq_zero this
      subst this
      simp [generateBlocks_nil, generateBytesStream]
    · push_neg at hlen
      rw [generateBlocks_step wb s hwb hlen]
      simp only [generateBytesStream]
      have ht1 : (s.take wb).length = wb := by
        rw [List.length_take]; omega
      have ht2 : ((s.drop wb).take wb).length = wb := by
        rw [List.length_take, List.length_drop]; omega
      have hb1 : ∀ b ∈ s.take wb, b < 256 :=
        fun b h => hbytes b (List.mem_of_mem_take h)
      have hb2 : ∀ b ∈ (s.drop wb).take wb, b < 256 :=
        fun b h => hbytes b (List.mem_of_mem_drop (List.mem_of_mem_take h))
      have hfl1 : fromLEBytes (s.take wb) < 2 ^ (8 * wb) := by
        have := fromLEBytes_lt (s.take wb) hb1
        rwa [ht1] at this
      have hfl2 : fromLEBytes ((s.drop wb).take wb) < 2 ^ (8 * wb) := by
        have := fromLEBytes_lt ((s.drop wb).take wb) hb2
        rwa [ht2] at this
      have e1 : toLEBytes wb (fromLEBytes (s.take wb)) = s.take wb := by
        have := toLEBytes_fromLEBytes (s.take wb) hb1
        rwa [ht1] at this
      have e2 : toLEBytes wb (fromLEBytes ((s.drop wb).take wb)) = (s.drop wb).take wb := by
        have := toLEBytes_fromLEBytes ((s.drop wb).take wb) hb2
        rwa [ht2] at this
      have hdalign : (s.drop (2 * wb)).length % (2 * wb) = 0 := by
        rw [List.length_drop]
        have h2 : 0 < 2 * wb := by omega
        obtain ⟨k, hk⟩ := Nat.dvd_of_mod_eq_zero haligned
        have hk1 : 1 ≤ k := by
          rcases Nat.eq_zero_or_pos k with h | h
          · subst h; omega
          · exact h
        rw [hk]
        have : 2 * wb * k - 2 * wb = 2 * wb * (k - 1) := by
          rw [Nat.mul_sub, Nat.mul_one]
        rw [this]
        exact Nat.mul_mod_right _ _
      have hdbytes : ∀ b ∈ s.drop (2 * wb), b < 256 :=
        fun b h => hbytes b (List.mem_of_mem_drop h)
      rw [e1, e2, ih (s.drop (2 * wb)).length (by rw [List.length_drop]; omega)
        _ rfl hdalign hdbytes]
      have hdd : s.drop (2 * wb) = (s.drop wb).drop wb := by
        rw [List.drop_drop]
        congr 1
        omega
      rw [hdd, List.append_assoc, List.take_append_drop wb (s.drop wb),
        List.take_append_drop wb s]

/-- generate_blocks produces one block per full chunk. -/
theorem generateBlocks_length (wb : Nat) (hwb : 0 < wb) :
    ∀ s : List Nat, (generateBlocks wb s).length = s.length / (2 * wb) := by
  intro s
  generalize hn : s.length = n
  induction n using Nat.strong_induction_on generalizing s with
  | _ n ih =>
    subst hn
    by_cases hlen : s.length < 2 * wb
    · rw [generateBlocks_short wb s hlen, Nat.div_eq_of_lt (by omega)]
      simp
    · push_neg at hlen
      rw [generateBlocks_step wb s hwb hlen]
      simp only [List.length_cons]
      rw [ih (s.drop (2 * wb)).length (by rw [List.length_drop]; omega) _ rfl]
      rw [List.length_drop]
      rw [Nat.div_eq_sub_div (by omega) hlen]

/-- Bytes beyond the last full chunk do not change generate_blocks. -/
theorem generateBlocks_append_junk (wb : Nat) (hwb : 0 < wb) :
    ∀ (s junk : List Nat), s.length % (2 * wb) = 0 → junk.length < 2 * wb →
    generateBlocks wb (s ++ junk) = generateBlocks wb s := by
  intro s
  generalize hn : s.length = n
  induction n using Nat.strong_induction_on generalizing s with
  | _ n ih =>
    subst hn
    intro junk haligned hjunk
    by_cases hlen : s.length < 2 * wb
    · have : s.length = 0 := by
        rcases Nat.eq_zero_or_pos s.length with h | h
        · exact h
        · exfalso
          have := Nat.le_of_dvd h (Nat.dvd_of_mod_eq_zero haligned)
          omega
      have hnil : s = [] := List.eq_nil_of_length_eq_zero this
      subst hnil
      rw [List.nil_append, generateBlocks_nil, generateBlocks_short wb junk hjunk]
    · push_neg at hlen
      have hstep1 := generateBlocks_step wb (s ++ junk) hwb
        (by rw [List.length_append]; omega)
      have hstep2 := generateBlocks_step wb s hwb hlen
      rw [hstep1, hstep2]
      have e1 : (s ++ junk).take wb = s.take wb :=
        List.take_append_of_le_length (by omega)
      have e2 : (s ++ junk).drop wb = s.drop wb ++ junk :=
        List.drop_append_of_le_length (by omega)
      have e3 : (s.drop wb ++ junk).take wb = (s.drop wb).take wb :=
        List.take_append_of_le_length (by rw [List.length_drop]; omega)
      have e4 : (s ++ junk).drop (2 * wb) = s.drop (2 * wb) ++ junk :=
        List.drop_append_of_le_length (by omega)
      have hdalign : (s.drop (2 * wb)).length % (2 * wb) = 0 := by
        rw [List.length_drop]
        obtain ⟨k, hk⟩ := Nat.dvd_of_mod_eq_zero haligned
        have hk1 : 1 ≤ k := by
          rcases Nat.eq_zero_or_pos k with h | h
          · subst h; omega
          · exact h
        rw [hk]
        have : 2 * wb * k - 2 * wb = 2 * wb * (k - 1) := by
          rw [Nat.mul_sub, Nat.mul_one]
        rw [this]
        exact Nat.mul_mod_right _ _
      rw [e1, e2, e3, e4,
        ih (s.drop (2 * wb)).length (by rw [List.length_drop]; omega) _ rfl
          junk hdalign hjunk]

/-- Every block split from a byte stream has both words below the width
bound. -/
theorem generateBlocks_bounds (wb : Nat) (hwb : 0 < wb) :
    ∀ s : List Nat, (∀ b ∈ s, b < 256) →
    ∀ blk ∈ generateBlocks wb s, blk.1 < 2 ^ (8 * wb) ∧ blk.2 < 2 ^ (8 * wb) := by
  intro s
  generalize hn : s.length = n
  induction n using Nat.strong_induction_on generalizing s with
  | _ n ih =>
    subst hn
    intro hbytes blk hblk
    by_cases hlen : s.length < 2 * wb
    · rw [generateBlocks_short wb s hlen] at hblk
      simp at hblk
    · push_neg at hlen
      rw [generateBlocks_step wb s hwb hlen] at hblk
      rcases List.mem_cons.mp hblk with h | h
      · subst h
        constructor
        · have h1 : (s.take wb).length = wb := by rw [List.length_take]; omega
          have := fromLEBytes_lt (s.take wb)
            (fun b hb => hbytes b (List.mem_of_mem_take hb))
          rwa [h1] at this
        · have h2 : ((s.drop wb).take wb).length = wb := by
            rw [List.length_take, List.length_drop]; omega
          have := fromLEBytes_lt ((s.drop wb).take wb)
            (fun b hb => hbytes b (List.mem_of_mem_drop (List.mem_of_mem_take hb)))
          rwa [h2] at this
      · exact ih (s.drop (2 * wb)).length (by rw [List.length_drop]; omega) _ rfl
          (fun b hb => hbytes b (List.mem_of_mem_drop hb)) blk h

/-! ### Lemmas about PKCS#7 -/

/-- The pad count the source computes: bs - rem when rem is positive,
otherwise a full block. -/
def padCount (L bs : Nat) : Nat :=
  if L % bs > 0 then bs - L % bs else bs

theorem padCount_pos (L bs : Nat) (h : 0 < bs) : 0 < padCount L bs := by
  unfold padCount
  have := Nat.mod_lt L h
  split <;> omega

theorem padCount_le (L bs : Nat) (h : 0 < bs) : padCount L bs ≤ bs := by
  unfold padCount
  split <;> omega

theorem padCount_aligned (L bs : Nat) (h : 0 < bs) :
    (L + padCount L bs) % bs = 0 := by
  have hdm := Nat.div_add_mod L bs
  have hmlt := Nat.mod_lt L h
  unfold padCount
  by_cases hr : L % bs > 0
  · rw [if_pos hr]
    have h2 : L + (bs - L % bs) = bs * (L / bs) + bs := by omega
    rw [h2, Nat.add_mod_right, Nat.mul_mod_right]
  · rw [if_neg hr]
    have h2 : L + bs = bs * (L / bs) + bs := by omega
    rw [h2, Nat.add_mod_right, Nat.mul_mod_right]

theorem pkcs7_pad_eq (buf : List Nat) (bs : Nat) :
    pkcs7 buf bs true =
      Except.ok (buf ++ List.replicate (padCount buf.length bs)
        (padCount buf.length bs % 256), buf.length % bs) := by
  simp [pkcs7, padCount]

/-- With a block size below 256 the appended pad byte equals the count. -/
theorem pkcs7_pad_eq_small (buf : List Nat) (bs : Nat) (h : 0 < bs)
    (hbs : bs < 256) :
    pkcs7 buf bs true =
      Except.ok (buf ++ List.replicate (padCount buf.length bs)
        (padCount buf.length bs), buf.length % bs) := by
  rw [pkcs7_pad_eq]
  have := padCount_le buf.length bs h
  rw [Nat.mod_eq_of_lt (by omega)]

/-- Unpadding a padded buffer restores it and reports the pad length. -/
theorem pkcs7_unpad_padded (buf : List Nat) (bs : Nat) (h : 0 < bs) :
    pkcs7 (buf ++ List.replicate (padCount buf.length bs)
      (padCount buf.length bs)) bs false =
      Except.ok (buf, padCount buf.length bs) := by
  have hpc1 := padCount_pos buf.length bs h
  have hpc2 := padCount_le buf.length bs h
  set pc := padCount buf.length bs with hpc
  have hlen : (buf ++ List.replicate pc pc).length = buf.length + pc := by
    rw [List.length_append, List.length_replicate]
  have halign : (buf.length + pc) % bs = 0 := padCount_aligned buf.length bs h
  have hlast : (buf ++ List.replicate pc pc).getLast? = some pc := by
    rw [List.getLast?_append]
    rw [List.getLast?_replicate, if_neg (by omega)]
    simp
  have hdrop : (buf ++ List.replicate pc pc).drop ((buf ++ List.replicate pc pc).length - pc)
      = List.replicate pc pc := by
    rw [hlen]
    have hbl : buf.length + pc - pc = buf.length := by omega
    rw [hbl, List.drop_left]
  have hall : ((buf ++ List.replicate pc pc).drop
      ((buf ++ List.replicate pc pc).length - pc)).all (fun e => e == pc) = true := by
    rw [hdrop]
    simp [List.all_eq_true, List.mem_replicate]
  have htake : (buf ++ List.replicate pc pc).take ((buf ++ List.replicate pc pc).length - pc)
      = buf := by
    rw [hlen]
    have hbl : buf.length + pc - pc = buf.length := by omega
    rw [hbl, List.take_left]
  simp only [pkcs7]
  rw [if_neg (by rw [hlen]; omega)]
  rw [hlast]
  simp only [Option.getD_some]
  rw [if_neg (by omega)]
  rw [if_neg (by rw [hall]; simp)]
  rw [htake]

/-! ### Lemmas about the modes -/

theorem ecb_roundtrip (B : Nat) (S : List Nat) (rounds : Nat) (hB : 0 < B) :
    ∀ blocks : List (Nat × Nat),
    (∀ blk ∈ blocks, blk.1 < 2 ^ B ∧ blk.2 < 2 ^ B) →
    ecbDecrypt B S rounds (ecbEncrypt B S rounds blocks) = blocks := by
  intro blocks hb
  induction blocks with
  | nil => rfl
  | cons blk rest ih =>
    have hblk := hb blk (by simp)
    simp only [ecbEncrypt, ecbDecrypt, List.map_cons] at *
    rw [decryptBlock_encryptBlock B S rounds blk hB hblk.1 hblk.2]
    rw [ih (fun b hb2 => hb b (by simp [hb2]))]

theorem cbc_roundtrip (B : Nat) (S : List Nat) (rounds : Nat) (hB : 0 < B) :
    ∀ (blocks : List (Nat × Nat)) (prev : Nat × Nat),
    prev.1 < 2 ^ B → prev.2 < 2 ^ B →
    (∀ blk ∈ blocks, blk.1 < 2 ^ B ∧ blk.2 < 2 ^ B) →
    cbcDecrypt B S rounds prev (cbcEncrypt B S rounds prev blocks) = blocks := by
  intro blocks
  induction blocks with
  | nil => intro prev _ _ _; rfl
  | cons blk rest ih =>
    intro prev hp1 hp2 hb
    have hblk := hb blk (by simp)
    simp only [cbcEncrypt, cbcDecrypt]
    have hx1 : prev.1 ^^^ blk.1 < 2 ^ B := xor_lt B _ _ hp1 hblk.1
    have hx2 : prev.2 ^^^ blk.2 < 2 ^ B := xor_lt B _ _ hp2 hblk.2
    rw [decryptBlock_encryptBlock B S rounds (prev.1 ^^^ blk.1, prev.2 ^^^ blk.2)
      hB hx1 hx2]
    congr 1
    · simp only
      rw [Nat.xor_comm prev.1 blk.1, xor_cancel_right, Nat.xor_comm prev.2 blk.2,
        xor_cancel_right]
    · exact ih (encryptBlock B S rounds (prev.1 ^^^ blk.1, prev.2 ^^^ blk.2))
        (encryptBlock_lt _ _ _ _).1 (encryptBlock_lt _ _ _ _).2
        (fun b hb2 => hb b (by simp [hb2]))

theorem zipWith_xor_cancel : ∀ (a k : List Nat), a.length ≤ k.length →
    List.zipWith (fun x y => x ^^^ y)
      (List.zipWith (fun x y => x ^^^ y) a k) k = a := by
  intro a
  induction a with
  | nil => intro k _; simp
  | cons x xs ih =>
    intro k hk
    cases k with
    | nil => simp at hk
    | cons y ys =>
      simp only [List.zipWith_cons_cons]
      rw [xor_cancel_right, ih ys (by simpa using hk)]

theorem ctrEncrypt_nil (wb : Nat) (S : List Nat) (rounds : Nat)
    (nc : Nat × Nat) : ctrEncrypt wb S rounds nc [] = [] := by
  rw [ctrEncrypt]

/-- One CTR step: first chunk xored with the serialized encryption of the
counter block, then the tail with the last word wrapping-incremented. -/
theorem ctrEncrypt_step (wb : Nat) (S : List Nat) (rounds : Nat)
    (nc : Nat × Nat) (s : List Nat) (hwb : 0 < wb) (hs : s ≠ []) :
    ctrEncrypt wb S rounds nc s =
      List.zipWith (fun x y => x ^^^ y) (s.take (2 * wb))
        (toLEBytes wb (encryptBlock (8 * wb) S rounds nc).1 ++
          toLEBytes wb (encryptBlock (8 * wb) S rounds nc).2) ++
      ctrEncrypt wb S rounds (nc.1, wadd (8 * wb) nc.2 1) (s.drop (2 * wb)) := by
  cases s with
  | nil => exact absurd rfl hs
  | cons b rest =>
    rw [ctrEncrypt]
    have hdrop : (b :: rest).drop (2 * wb) = rest.drop (2 * wb - 1) := by
      cases hw : 2 * wb with
      | zero => omega
      | succ m => simp [List.drop_succ_cons]
    rw [hdrop]

theorem ctr_keystream_length (wb : Nat) (S : List Nat) (rounds : Nat)
    (nc : Nat × Nat) :
    (toLEBytes wb (encryptBlock (8 * wb) S rounds nc).1 ++
      toLEBytes wb (encryptBlock (8 * wb) S rounds nc).2).length = 2 * wb := by
  rw [List.length_append, toLEBytes_length, toLEBytes_length]
  omega

/-- CTR is an involution: running the keystream xor twice with the same
counter restores the stream. -/
theorem ctr_roundtrip (wb : Nat) (S : List Nat) (rounds : Nat) (hwb : 0 < wb) :
    ∀ (s : List Nat) (nc : Nat × Nat),
    ctrEncrypt wb S rounds nc (ctrEncrypt wb S rounds nc s) = s := by
  intro s
  generalize hn : s.length = n
  induction n using Nat.strong_induction_on generalizing s with
  | _ n ih =>
    subst hn
    intro nc
    by_cases hs0 : s = []
    case pos =>
      subst hs0
      rw [ctrEncrypt_nil, ctrEncrypt_nil]
    case neg =>
      have hs : s ≠ [] := hs0
      set ks := toLEBytes wb (encryptBlock (8 * wb) S rounds nc).1 ++
        toLEBytes wb (encryptBlock (8 * wb) S rounds nc).2 with hks
      have hkslen : ks.length = 2 * wb := ctr_keystream_length wb S rounds nc
      set A := List.zipWith (fun x y => x ^^^ y) (s.take (2 * wb)) ks with hA
      have hAlen : A.length = min s.length (2 * wb) := by
        rw [hA, List.length_zipWith, List.length_take, hkslen]
        omega
      rw [ctrEncrypt_step wb S rounds nc s hwb hs]
      by_cases hlong : 2 * wb ≤ s.length
      · have hAfull : A.length = 2 * wb := by omega
        have e1 := (append_take_drop_eq A
          (ctrEncrypt wb S rounds (nc.1, wadd (8 * wb) nc.2 1) (s.drop (2 * wb)))
          (2 * wb) hAfull).1
        have e2 := (append_take_drop_eq A
          (ctrEncrypt wb S rounds (nc.1, wadd (8 * wb) nc.2 1) (s.drop (2 * wb)))
          (2 * wb) hAfull).2
        have hne : A ++ ctrEncrypt wb S rounds (nc.1, wadd (8 * wb) nc.2 1)
            (s.drop (2 * wb)) ≠ [] := by
          intro hcon
          have := congrArg List.length hcon
          rw [List.length_append, hAfull] at this
          simp at this
          omega
        rw [ctrEncrypt_step wb S rounds nc _ hwb hne, ← hks, e1, e2, hA,
          zipWith_xor_cancel _ _ (by rw [List.length_take, hkslen]; omega)]
        rw [ih (s.drop (2 * wb)).length (by rw [List.length_drop]; omega) _ rfl]
        exact List.take_append_drop _ _
      · push_neg at hlong
        have hdnil : s.drop (2 * wb) = [] :=
          List.drop_eq_nil_of_le (by omega)
        rw [hdnil, ctrEncrypt_nil, List.append_nil]
        have hAshort : A.length = s.length := by omega
        have hAne : A ≠ [] := by
          intro hcon
          have hlencon := congrArg List.length hcon
          rw [hAshort] at hlencon
          simp only [List.length_nil] at hlencon
          exact hs (List.eq_nil_of_length_eq_zero hlencon)
        rw [ctrEncrypt_step wb S rounds nc A hwb hAne, ← hks]
        rw [List.take_of_length_le (by omega), List.drop_eq_nil_of_le (by omega),
          ctrEncrypt_nil, List.append_nil, hA,
          zipWith_xor_cancel _ _ (by rw [List.length_take, hkslen]; omega)]
        exact List.take_of_length_le (by omega)

/-- Dropping one keystream block advances the CTR state by exactly one
wrapping increment of the last word, the nonce word untouched. -/
theorem ctrEncrypt_drop (wb : Nat) (S : List Nat) (rounds : Nat) (hwb : 0 < wb)
    (nc : Nat × Nat) (s : List Nat) :
    (ctrEncrypt wb S rounds nc s).drop (2 * wb) =
      ctrEncrypt wb S rounds (nc.1, wadd (8 * wb) nc.2 1) (s.drop (2 * wb)) := by
  by_cases hs : s = []
  · subst hs
    rw [ctrEncrypt_nil, List.drop_nil, ctrEncrypt_nil]
  · rw [ctrEncrypt_step wb S rounds nc s hwb hs]
    set ks := toLEBytes wb (encryptBlock (8 * wb) S rounds nc).1 ++
      toLEBytes wb (encryptBlock (8 * wb) S rounds nc).2 with hks
    have hkslen : ks.length = 2 * wb := ctr_keystream_length wb S rounds nc
    set A := List.zipWith (fun x y => x ^^^ y) (s.take (2 * wb)) ks with hA
    have hAlen : A.length = min s.length (2 * wb) := by
      rw [hA, List.length_zipWith, List.length_take, hkslen]
      omega
    by_cases hlong : 2 * wb ≤ s.length
    · exact (append_take_drop_eq A _ (2 * wb) (by omega)).2
    · push_neg at hlong
      have hd : s.drop (2 * wb) = [] := List.drop_eq_nil_of_le (by omega)
      rw [hd, ctrEncrypt_nil, List.append_nil]
      exact List.drop_eq_nil_of_le (by omega)

/-- After k + 1 keystream blocks the counter block is the original nonce
word paired with the counter incremented k + 1 times with wraparound. -/
theorem ctrEncrypt_drop_iter (wb : Nat) (S : List Nat) (rounds : Nat)
    (hwb : 0 < wb) :
    ∀ (k : Nat) (nc : Nat × Nat) (s : List Nat),
    (ctrEncrypt wb S rounds nc s).drop (2 * wb * (k + 1)) =
      ctrEncrypt wb S rounds (nc.1, (nc.2 + (k + 1)) % 2 ^ (8 * wb))
        (s.drop (2 * wb * (k + 1))) := by
  intro k
  induction k with
  | zero =>
    intro nc s
    have h1 : 2 * wb * (0 + 1) = 2 * wb := by ring
    rw [h1, ctrEncrypt_drop wb S rounds hwb nc s]
    rfl
  | succ k ih =>
    intro nc s
    have h1 : 2 * wb * (k + 1 + 1) = 2 * wb * (k + 1) + 2 * wb := by ring
    rw [h1, ← List.drop_drop, ih nc s,
      ctrEncrypt_drop wb S rounds hwb _ _, List.drop_drop]
    have hcnt : wadd (8 * wb) ((nc.2 + (k + 1)) % 2 ^ (8 * wb)) 1
        = (nc.2 + (k + 1 + 1)) % 2 ^ (8 * wb) := by
      unfold wadd
      rw [Nat.mod_add_mod]
      congr 1
    rw [hcnt]

/-! ### Cipher-level round trips -/

theorem ecbEncrypt_bounds (B : Nat) (S : List Nat) (rounds : Nat)
    (blocks : List (Nat × Nat)) :
    ∀ blk ∈ ecbEncrypt B S rounds blocks, blk.1 < 2 ^ B ∧ blk.2 < 2 ^ B := by
  intro blk hblk
  rcases List.mem_map.mp hblk with ⟨orig, _, rfl⟩
  exact encryptBlock_lt B S rounds orig

theorem cbcEncrypt_bounds (B : Nat) (S : List Nat) (rounds : Nat) :
    ∀ (blocks : List (Nat × Nat)) (prev : Nat × Nat),
    ∀ blk ∈ cbcEncrypt B S rounds prev blocks,
      blk.1 < 2 ^ B ∧ blk.2 < 2 ^ B := by
  intro blocks
  induction blocks with
  | nil => intro prev blk hblk; simp [cbcEncrypt] at hblk
  | cons b rest ih =>
    intro prev blk hblk
    simp only [cbcEncrypt] at hblk
    rcases List.mem_cons.mp hblk with h | h
    · subst h; exact encryptBlock_lt _ _ _ _
    · exact ih _ blk h

theorem padded_bytes (pt : List Nat) (pc : Nat) (hpt : ∀ b ∈ pt, b < 256)
    (hpc : pc < 256) : ∀ b ∈ pt ++ List.replicate pc pc, b < 256 := by
  intro b hb
  rcases List.mem_append.mp hb with h | h
  · exact hpt b h
  · rw [List.eq_of_mem_replicate h]; exact hpc

/-- Round trip through the Cipher facade in ECB mode. -/
theorem cipher_roundtrip_ecb (wb : Nat) (S : List Nat) (rounds : Nat)
    (pt : List Nat) (hwb : 0 < wb) (hbs : 2 * wb < 256)
    (hpt : ∀ b ∈ pt, b < 256) :
    Except.bind (cipherEncrypt wb S rounds pt OperationMode.ECB)
      (fun ct => cipherDecrypt wb S rounds ct OperationMode.ECB)
      = Except.ok pt := by
  have h0 : 0 < 2 * wb := by omega
  have hpcle := padCount_le pt.length (2 * wb) h0
  have hpb : ∀ b ∈ pt ++ List.replicate (padCount pt.length (2 * wb))
      (padCount pt.length (2 * wb)), b < 256 :=
    padded_bytes pt _ hpt (by omega)
  have hpal : (pt ++ List.replicate (padCount pt.length (2 * wb))
      (padCount pt.length (2 * wb))).length % (2 * wb) = 0 := by
    rw [List.length_append, List.length_replicate]
    exact padCount_aligned _ _ h0
  simp only [cipherEncrypt, cipherDecrypt]
  rw [pkcs7_pad_eq_small pt (2 * wb) h0 hbs]
  simp only [Except.bind]
  rw [generateBlocks_generateBytesStream wb hwb _ (ecbEncrypt_bounds _ _ _ _)]
  rw [ecb_roundtrip (8 * wb) S rounds (by omega) _
    (generateBlocks_bounds wb hwb _ hpb)]
  rw [generateBytesStream_generateBlocks wb hwb _ hpal hpb]
  rw [pkcs7_unpad_padded pt (2 * wb) h0]

/-- Round trip through the Cipher facade in CBC mode. -/
theorem cipher_roundtrip_cbc (wb : Nat) (S : List Nat) (rounds : Nat)
    (pt : List Nat) (iv : Nat × Nat) (hwb : 0 < wb) (hbs : 2 * wb < 256)
    (hiv1 : iv.1 < 2 ^ (8 * wb)) (hiv2 : iv.2 < 2 ^ (8 * wb))
    (hpt : ∀ b ∈ pt, b < 256) :
    Except.bind (cipherEncrypt wb S rounds pt (OperationMode.CBC iv))
      (fun ct => cipherDecrypt wb S rounds ct (OperationMode.CBC iv))
      = Except.ok pt := by
  have h0 : 0 < 2 * wb := by omega
  have hpcle := padCount_le pt.length (2 * wb) h0
  have hpb : ∀ b ∈ pt ++ List.replicate (padCount pt.length (2 * wb))
      (padCount pt.length (2 * wb)), b < 256 :=
    padded_bytes pt _ hpt (by omega)
  have hpal : (pt ++ List.replicate (padCount pt.length (2 * wb))
      (padCount pt.length (2 * wb))).length % (2 * wb) = 0 := by
    rw [List.length_append, List.length_replicate]
    exact padCount_aligned _ _ h0
  simp only [cipherEncrypt, cipherDecrypt]
  rw [pkcs7_pad_eq_small pt (2 * wb) h0 hbs]
  simp only [Except.bind]
  rw [generateBlocks_generateBytesStream wb hwb _
    (fun blk h => cbcEncrypt_bounds (8 * wb) S rounds _ iv blk h)]
  rw [cbc_roundtrip (8 * wb) S rounds (by omega) _ iv hiv1 hiv2
    (generateBlocks_bounds wb hwb _ hpb)]
  rw [generateBytesStream_generateBlocks wb hwb _ hpal hpb]
  rw [pkcs7_unpad_padded pt (2 * wb) h0]

/-- Round trip through the Cipher facade in CTR mode. -/
theorem cipher_roundtrip_ctr (wb : Nat) (S : List Nat) (rounds : Nat)
    (pt : List Nat) (nc : Nat × Nat) (hwb : 0 < wb) :
    Except.bind (cipherEncrypt wb S rounds pt (OperationMode.CTR nc))
      (fun ct => cipherDecrypt wb S rounds ct (OperationMode.CTR nc))
      = Except.ok pt := by
  simp only [cipherEncrypt, cipherDecrypt, Except.bind, ctrDecrypt]
  rw [ctr_roundtrip wb S rounds hwb pt nc]

/-! ### getD / set helper lemmas -/

theorem getD_append_left (l1 l2 : List Nat) (i : Nat) (d : Nat)
    (h : i < l1.length) : (l1 ++ l2).getD i d = l1.getD i d := by
  rw [List.getD_eq_getElem?_getD, List.getD_eq_getElem?_getD,
    List.getElem?_append, if_pos h]

theorem getD_map_range (f : Nat → Nat) (m i d : Nat) (h : i < m) :
    ((List.range m).map f).getD i d = f i := by
  rw [List.getD_eq_getElem?_getD, List.getElem?_map, List.getElem?_range h]
  rfl

theorem getD_replicate (n i : Nat) (a d : Nat) (h : i < n) :
    (List.replicate n a).getD i d = a := by
  rw [List.getD_eq_getElem?_getD, List.getElem?_replicate, if_pos h]
  rfl

theorem getD_set_self (st : List Nat) (ix : Nat) (v d : Nat)
    (h : ix < st.length) : (st.set ix v).getD ix d = v := by
  rw [List.getD_eq_getElem?_getD, List.getElem?_set_self h]
  rfl

theorem set_getD_self (st : List Nat) (ix : Nat) (h : ix < st.length) :
    st.set ix (st.getD ix 0) = st := by
  apply List.ext_getElem?
  intro n
  by_cases hn : n = ix
  · subst hn
    rw [List.getElem?_set_self h, List.getD_eq_getElem?_getD,
      List.getElem?_eq_getElem h]
    rfl
  · rw [List.getElem?_set_ne (fun hc => hn hc.symm)]

theorem set_append_boundary (l1 : List Nat) (b : Nat) (l2 : List Nat)
    (v : Nat) : (l1 ++ b :: l2).set l1.length v = l1 ++ v :: l2 := by
  induction l1 with
  | nil => rfl
  | cons x xs ih => simp [List.set, ih]

theorem set_replicate_succ (c : Nat) (tail : List Nat) (v : Nat) :
    (List.replicate (c + 1) (0:Nat) ++ tail).set c v
      = List.replicate c 0 ++ (v :: tail) := by
  rw [List.replicate_succ', List.append_assoc, List.singleton_append]
  have h := set_append_boundary (List.replicate c 0) 0 tail v
  rwa [List.length_replicate] at h

/-! ### Key packing equals little-endian packing (claim C4) -/

/-- The body of the packing loop of expand_key, one byte at index. -/
def packStep (wb : Nat) (key : List Nat) (index : Nat) (kw : List Nat) :
    List Nat :=
  kw.set (index / wb)
    (wadd (8 * wb) (rotl (8 * wb) (kw.getD (index / wb) 0) 8)
      (key.getD index 0))

theorem packKey_eq_foldr (wb : Nat) (key : List Nat) :
    packKey wb key = (List.range (max key.length 1)).foldr (packStep wb key)
      (List.replicate ((max key.length 1 + wb - 1) / wb) 0) := rfl

/-- Scalar value of a packing cell: the chunk bytes are absorbed from the
highest index down, each step rotating by 8 and adding. -/
def packScalar (B : Nat) (v : Nat) : List Nat → Nat
  | [] => v
  | b :: bs => wadd B (rotl B (packScalar B v bs) 8) b

theorem packScalar_concat (B v b : Nat) : ∀ l : List Nat,
    packScalar B v (l ++ [b]) = packScalar B (wadd B (rotl B v 8) b) l := by
  intro l
  induction l with
  | nil => rfl
  | cons x xs ih => simp [packScalar, ih]

theorem rotl_eight (B w : Nat) (hB : 8 ≤ B) (hw : w < 2 ^ (B - 8)) :
    rotl B w 8 = w * 256 := by
  rcases Nat.lt_or_ge 8 B with h8 | h8
  · have hk : 8 % B = 8 := Nat.mod_eq_of_lt h8
    have hwB : w < 2 ^ B := by
      calc w < 2 ^ (B - 8) := hw
        _ ≤ 2 ^ B := Nat.pow_le_pow_right (by omega) (by omega)
    unfold rotl
    rw [hk, Nat.mod_eq_of_lt hwB, Nat.mod_eq_of_lt hw, Nat.div_eq_of_lt hw]
    norm_num
  · have hB8 : B = 8 := by omega
    subst hB8
    have hw0 : w = 0 := by simpa using hw
    subst hw0
    unfold rotl
    simp

theorem packScalar_eq (wb : Nat) (hwb : 0 < wb) : ∀ (bs : List Nat) (v : Nat),
    bs.length ≤ wb → (∀ b ∈ bs, b < 256) → v < 2 ^ (8 * (wb - bs.length)) →
    packScalar (8 * wb) v bs = fromLEBytes bs + v * 2 ^ (8 * bs.length) := by
  intro bs
  induction bs with
  | nil =>
    intro v _ _ _
    simp [packScalar, fromLEBytes]
  | cons b rest ih =>
    intro v hlen hbytes hv
    have hb : b < 256 := hbytes b (by simp)
    have hrb : ∀ x ∈ rest, x < 256 := fun x hx => hbytes x (by simp [hx])
    have hrlen : rest.length ≤ wb := by simp at hlen; omega
    have hv' : v < 2 ^ (8 * (wb - rest.length)) := by
      calc v < 2 ^ (8 * (wb - (rest.length + 1))) := by
            simpa using hv
        _ ≤ 2 ^ (8 * (wb - rest.length)) :=
            Nat.pow_le_pow_right (by omega) (by omega)
    have hIH := ih v hrlen hrb hv'
    simp only [packScalar, hIH]
    have hlen1 : rest.length + 1 ≤ wb := by simpa using hlen
    have hsplit : 8 * wb - 8 = 8 * (wb - 1) := by omega
    have hw : fromLEBytes rest + v * 2 ^ (8 * rest.length) < 2 ^ (8 * wb - 8) := by
      have hfl := fromLEBytes_lt rest hrb
      have hv8 : v ≤ 2 ^ (8 * (wb - (rest.length + 1))) - 1 := by
        have := hv
        simp only [List.length_cons] at this
        omega
      have hmul : v * 2 ^ (8 * rest.length)
          ≤ (2 ^ (8 * (wb - (rest.length + 1))) - 1) * 2 ^ (8 * rest.length) :=
        Nat.mul_le_mul_right _ hv8
      have hcomb : 2 ^ (8 * (wb - (rest.length + 1))) * 2 ^ (8 * rest.length)
          = 2 ^ (8 * wb - 8) := by
        rw [← pow_add]
        congr 1
        omega
      have hp1 : 0 < 2 ^ (8 * rest.length) := two_pow_pos _
      have hp2 : 0 < 2 ^ (8 * (wb - (rest.length + 1))) := two_pow_pos _
      calc fromLEBytes rest + v * 2 ^ (8 * rest.length)
          ≤ fromLEBytes rest +
            (2 ^ (8 * (wb - (rest.length + 1))) - 1) * 2 ^ (8 * rest.length) := by
            omega
        _ < 2 ^ (8 * rest.length) +
            (2 ^ (8 * (wb - (rest.length + 1))) - 1) * 2 ^ (8 * rest.length) := by
            omega
        _ = 2 ^ (8 * (wb - (rest.length + 1))) * 2 ^ (8 * rest.length) := by
            rw [Nat.sub_mul, one_mul]
            have hge : 2 ^ (8 * rest.length)
                ≤ 2 ^ (8 * (wb - (rest.length + 1))) * 2 ^ (8 * rest.length) :=
              Nat.le_mul_of_pos_left _ hp2
            omega
        _ = 2 ^ (8 * wb - 8) := hcomb
    rw [rotl_eight (8 * wb) _ (by omega) hw]
    have hfin : (fromLEBytes rest + v * 2 ^ (8 * rest.length)) * 256 + b
        < 2 ^ (8 * wb) := by
      have h1 : fromLEBytes rest + v * 2 ^ (8 * rest.length)
          ≤ 2 ^ (8 * wb - 8) - 1 := by omega
      have h2 : (fromLEBytes rest + v * 2 ^ (8 * rest.length)) * 256
          ≤ (2 ^ (8 * wb - 8) - 1) * 256 := Nat.mul_le_mul_right _ h1
      have h3 : 2 ^ (8 * wb - 8) * 256 = 2 ^ (8 * wb) := by
        have h256 : (256 : Nat) = 2 ^ 8 := by norm_num
        rw [h256, ← pow_add]
        congr 1
        omega
      have h4 : 0 < 2 ^ (8 * wb - 8) := two_pow_pos _
      omega
    rw [wadd_small _ _ _ hfin]
    simp only [fromLEBytes, List.length_cons]
    have hpow : 2 ^ (8 * (rest.length + 1)) = 2 ^ (8 * rest.length) * 256 := by
      rw [Nat.mul_succ, pow_add]
      norm_num
    rw [hpow]
    ring

/-- A contiguous run of byte indices that all target the same key word cell
folds to that cell absorbing the chunk. -/
theorem foldr_range_chunk (wb : Nat) (key : List Nat) (_hwb : 0 < wb) :
    ∀ (l s ix : Nat) (st : List Nat),
    (∀ m < l, (s + m) / wb = ix) → ix < st.length → s + l ≤ key.length →
    (List.range' s l).foldr (packStep wb key) st
      = st.set ix (packScalar (8 * wb) (st.getD ix 0) ((key.drop s).take l)) := by
  intro l
  induction l with
  | zero =>
    intro s ix st hdiv hix hle
    show st = st.set ix (packScalar (8 * wb) (st.getD ix 0) [])
    exact (set_getD_self st ix hix).symm
  | succ l ih =>
    intro s ix st hdiv hix hle
    rw [List.range'_concat, List.foldr_append]
    simp only [List.foldr_cons, List.foldr_nil]
    have hsl : s + 1 * l = s + l := by ring
    rw [hsl]
    have hdix : (s + l) / wb = ix := hdiv l (by omega)
    have hstep : packStep wb key (s + l) st
        = st.set ix (wadd (8 * wb) (rotl (8 * wb) (st.getD ix 0) 8)
            (key.getD (s + l) 0)) := by
      unfold packStep
      rw [hdix]
    rw [hstep]
    rw [ih s ix _ (fun m hm => hdiv m (by omega))
      (by rw [List.length_set]; exact hix) (by omega)]
    rw [List.set_set]
    refine congrArg (fun v => st.set ix v) ?_
    rw [getD_set_self st ix _ 0 hix]
    have hlt : s + l < key.length := by omega
    have htk : (key.drop s).take (l + 1)
        = (key.drop s).take l ++ [key.getD (s + l) 0] := by
      rw [List.take_succ]
      congr 1
      rw [List.getElem?_drop, List.getElem?_eq_getElem hlt]
      rw [List.getD_eq_getElem?_getD, List.getElem?_eq_getElem hlt]
      rfl
    rw [htk, packScalar_concat]

/-- Modelled from the claim wording of C4: the key bytes packed little-endian
into ceil(max(len,1)/word_bytes) words, each word the little-endian value of
its chunk. -/
def packKeySpec (wb : Nat) (key : List Nat) : List Nat :=
  (List.range ((max key.length 1 + wb - 1) / wb)).map
    (fun ix => fromLEBytes ((key.drop (wb * ix)).take wb))

/-- The packing fold fills the first c cells chunk by chunk, leaving any
appended tail untouched. -/
theorem packFold_eq_chunks (wb : Nat) (key : List Nat) (hwb : 0 < wb)
    (hkey : ∀ b ∈ key, b < 256) :
    ∀ (c n : Nat) (tail : List Nat), n ≤ key.length → n ≤ wb * c →
    wb * c < n + wb →
    (List.range n).foldr (packStep wb key) (List.replicate c 0 ++ tail)
      = (List.range c).map
          (fun ix => fromLEBytes (((key.take n).drop (wb * ix)).take wb))
        ++ tail := by
  intro c
  induction c with
  | zero =>
    intro n tail hnk hn0 _
    have hn : n = 0 := by omega
    subst hn
    simp
  | succ c ih =>
    intro n tail hnk hup hlow
    have hcn : wb * c < n := by
      have h := hlow
      rw [Nat.mul_succ] at h
      omega
    have hr1 : 1 ≤ n - wb * c := by omega
    have hrwb : n - wb * c ≤ wb := by
      have h := hup
      rw [Nat.mul_succ] at h
      omega
    have hrange : List.range n
        = List.range (wb * c) ++ List.range' (wb * c) (n - wb * c) := by
      rw [List.range'_eq_map_range, ← List.range_add]
      congr 1
      omega
    rw [hrange, List.foldr_append]
    have hdiv : ∀ m < n - wb * c, (wb * c + m) / wb = c := by
      intro m hm
      rw [Nat.mul_add_div hwb]
      rw [Nat.div_eq_of_lt (by omega), Nat.add_zero]
    have hix : c < (List.replicate (c + 1) (0:Nat) ++ tail).length := by
      rw [List.length_append, List.length_replicate]
      omega
    rw [foldr_range_chunk wb key hwb (n - wb * c) (wb * c) c _ hdiv hix
      (by omega)]
    have hg0 : (List.replicate (c + 1) (0:Nat) ++ tail).getD c 0 = 0 := by
      rw [getD_append_left _ _ _ _ (by rw [List.length_replicate]; omega)]
      exact getD_replicate _ _ _ _ (by omega)
    rw [hg0]
    have hchunklen : ((key.drop (wb * c)).take (n - wb * c)).length ≤ wb := by
      rw [List.length_take]
      omega
    have hchunkbytes : ∀ b ∈ (key.drop (wb * c)).take (n - wb * c), b < 256 :=
      fun b hb => hkey b (List.mem_of_mem_drop (List.mem_of_mem_take hb))
    have hps := packScalar_eq wb hwb ((key.drop (wb * c)).take (n - wb * c)) 0
      hchunklen hchunkbytes (two_pow_pos _)
    have hps2 : packScalar (8 * wb) 0 ((key.drop (wb * c)).take (n - wb * c))
        = fromLEBytes ((key.drop (wb * c)).take (n - wb * c)) := by
      rw [hps]
      simp
    rw [hps2]
    rw [set_replicate_succ c tail _]
    rw [ih (wb * c) _ (by omega) (le_refl _) (by omega)]
    have hmapeq : (List.range c).map
        (fun ix => fromLEBytes (((key.take (wb * c)).drop (wb * ix)).take wb))
        = (List.range c).map
          (fun ix => fromLEBytes (((key.take n).drop (wb * ix)).take wb)) := by
      apply List.map_congr_left
      intro ix hixm
      have hixc : ix < c := List.mem_range.mp hixm
      have hmul : wb * ix + wb ≤ wb * c := by
        have h := Nat.mul_le_mul_left wb (show ix + 1 ≤ c from hixc)
        rw [Nat.mul_add, Nat.mul_one] at h
        exact h
      rw [List.drop_take, List.drop_take, List.take_take, List.take_take]
      have h1 : wb ⊓ (wb * c - wb * ix) = wb := Nat.min_eq_left (by omega)
      have h2 : wb ⊓ (n - wb * ix) = wb := Nat.min_eq_left (by omega)
      rw [h1, h2]
    have hlast : ((key.take n).drop (wb * c)).take wb
        = (key.drop (wb * c)).take (n - wb * c) := by
      rw [List.drop_take, List.take_take]
      rw [Nat.min_eq_right (by omega)]
    rw [hmapeq, ← hlast]
    rw [List.range_succ, List.map_append]
    simp

/-- The source packing loop computes exactly the little-endian packing of
the key bytes. -/
theorem packKey_eq_spec (wb : Nat) (key : List Nat) (hwb : 0 < wb)
    (hne : key ≠ []) (hkey : ∀ b ∈ key, b < 256) :
    packKey wb key = packKeySpec wb key := by
  have hlen1 : 1 ≤ key.length := List.length_pos.mpr hne
  have hmax : max key.length 1 = key.length := by omega
  have hdm := Nat.div_add_mod (key.length + wb - 1) wb
  have hmod := Nat.mod_lt (key.length + wb - 1) hwb
  have h1 : key.length ≤ wb * ((key.length + wb - 1) / wb) := by omega
  have h2 : wb * ((key.length + wb - 1) / wb) < key.length + wb := by omega
  rw [packKey_eq_foldr]
  unfold packKeySpec
  rw [hmax]
  have hG := packFold_eq_chunks wb key hwb hkey ((key.length + wb - 1) / wb)
    key.length [] (le_refl _) h1 h2
  rw [List.append_nil, List.append_nil, List.take_length] at hG
  exact hG

/-! ### Seeding equals the closed form (claim C4) -/

/-- Modelled from the claim wording of C4: the i-th seed is P plus i
wrapping additions of Q. -/
def seedTableSpec (B t : Nat) : List Nat :=
  (List.range t).map
    (fun i => if i = 0 then Pconst B else (Pconst B + i * Qconst B) % 2 ^ B)

theorem seed_invariant (B t : Nat) (ht : 1 ≤ t) :
    ∀ k, k ≤ t - 1 →
    (List.range' 1 k).foldl
      (fun s i => s.set i (wadd B (s.getD (i - 1) 0) (Qconst B)))
      ((List.replicate t 0).set 0 (Pconst B))
      = (List.range (k + 1)).map
          (fun i => if i = 0 then Pconst B else (Pconst B + i * Qconst B) % 2 ^ B)
        ++ List.replicate (t - (k + 1)) 0 := by
  intro k
  induction k with
  | zero =>
    intro _
    have hrep : List.replicate t (0:Nat) = 0 :: List.replicate (t - 1) 0 := by
      cases t with
      | zero => omega
      | succ m => simp [List.replicate_succ]
    rw [hrep]
    rw [show List.range 1 = [0] from rfl]
    simp
  | succ k ih =>
    intro hk
    rw [List.range'_concat, List.foldl_append]
    rw [ih (by omega)]
    simp only [List.foldl_cons, List.foldl_nil]
    have he : 1 + 1 * k = k + 1 := by ring
    rw [he]
    have hmlen : ((List.range (k + 1)).map
        (fun i => if i = 0 then Pconst B
          else (Pconst B + i * Qconst B) % 2 ^ B)).length = k + 1 := by
      rw [List.length_map, List.length_range]
    have hg : ((List.range (k + 1)).map
        (fun i => if i = 0 then Pconst B
          else (Pconst B + i * Qconst B) % 2 ^ B)
        ++ List.replicate (t - (k + 1)) 0).getD (k + 1 - 1) 0
        = (if k = 0 then Pconst B else (Pconst B + k * Qconst B) % 2 ^ B) := by
      have hk1 : k + 1 - 1 = k := by omega
      rw [hk1, getD_append_left _ _ _ _ (by rw [hmlen]; omega)]
      exact getD_map_range _ _ _ _ (by omega)
    rw [hg]
    have hval : wadd B (if k = 0 then Pconst B
        else (Pconst B + k * Qconst B) % 2 ^ B) (Qconst B)
        = (if k + 1 = 0 then Pconst B
          else (Pconst B + (k + 1) * Qconst B) % 2 ^ B) := by
      by_cases hk0 : k = 0
      · subst hk0
        rw [if_pos (rfl : (0:Nat) = 0), if_neg (show ¬(0 + 1 = 0) by omega)]
        unfold wadd
        congr 1
        ring
      · rw [if_neg hk0, if_neg (show ¬(k + 1 = 0) by omega)]
        unfold wadd
        rw [Nat.mod_add_mod]
        congr 1
        ring
    rw [hval]
    have hrep2 : List.replicate (t - (k + 1)) (0:Nat)
        = 0 :: List.replicate (t - (k + 2)) 0 := by
      have h1 : t - (k + 1) = (t - (k + 2)) + 1 := by omega
      rw [h1, List.replicate_succ]
    rw [hrep2]
    have hset := set_append_boundary ((List.range (k + 1)).map
        (fun i => if i = 0 then Pconst B
          else (Pconst B + i * Qconst B) % 2 ^ B)) 0
        (List.replicate (t - (k + 2)) 0)
        (if k + 1 = 0 then Pconst B else (Pconst B + (k + 1) * Qconst B) % 2 ^ B)
    rw [hmlen] at hset
    rw [hset]
    have hfinal : (List.range (k + 1 + 1)).map
        (fun i => if i = 0 then Pconst B
          else (Pconst B + i * Qconst B) % 2 ^ B)
        = (List.range (k + 1)).map
            (fun i => if i = 0 then Pconst B
              else (Pconst B + i * Qconst B) % 2 ^ B)
          ++ [if k + 1 = 0 then Pconst B
              else (Pconst B + (k + 1) * Qconst B) % 2 ^ B] := by
      rw [List.range_succ, List.map_append]
      rfl
    rw [hfinal, List.append_assoc, List.singleton_append]

theorem seedTable_eq_spec (B t : Nat) : seedTable B t = seedTableSpec B t := by
  cases t with
  | zero => rfl
  | succ m =>
    have hinv := seed_invariant B (m + 1) (by omega) m (by omega)
    unfold seedTable seedTableSpec
    simp only [Nat.add_sub_cancel] at hinv ⊢
    rw [hinv]
    simp

/-! ### expand_key refinement and length -/

/-- Modelled from the claim wording of C4: S-table of 2*(rounds+1) words,
key words packed little-endian, table seeded from P by adding Q, then
exactly 3*max(table_size, key_word_count) mixing iterations with the stated
update equations (the mixing recurrence of the claim coincides with the
source mixStep). -/
def expandKeySpec (wb : Nat) (key : List Nat) (rounds : Nat) : List Nat :=
  (mixLoop (8 * wb) (3 * max (2 * (rounds + 1)) (packKeySpec wb key).length)
    { s := seedTableSpec (8 * wb) (2 * (rounds + 1))
      kw := packKeySpec wb key
      i := 0
      j := 0
      a := 0
      b := 0 }).s

theorem expandKey_eq_spec (wb : Nat) (key : List Nat) (rounds : Nat)
    (hwb : 0 < wb) (hne : key ≠ []) (hkey : ∀ b ∈ key, b < 256) :
    expandKey wb key rounds = expandKeySpec wb key rounds := by
  simp only [expandKey, expandKeySpec]
  rw [packKey_eq_spec wb key hwb hne hkey, seedTable_eq_spec]

theorem seedTable_length (B t : Nat) : (seedTable B t).length = t := by
  rw [seedTable_eq_spec]
  unfold seedTableSpec
  rw [List.length_map, List.length_range]

theorem mixLoop_s_length (B : Nat) :
    ∀ (n : Nat) (st : MixState), (mixLoop B n st).s.length = st.s.length := by
  intro n
  induction n with
  | zero => intro st; rfl
  | succ n ih =>
    intro st
    show (mixLoop B n (mixStep B st)).s.length = _
    rw [ih (mixStep B st)]
    show (st.s.set st.i _).length = _
    rw [List.length_set]

theorem expandKey_length (wb : Nat) (key : List Nat) (rounds : Nat) :
    (expandKey wb key rounds).length = 2 * (rounds + 1) := by
  simp only [expandKey]
  rw [mixLoop_s_length]
  exact seedTable_length _ _

/-! ### Remaining auxiliary lemmas for the claims -/

/-- The Rust type [W; 2] bounds both words of a mode parameter block. -/
def ModeValid (wb : Nat) : OperationMode → Prop
  | OperationMode.ECB => True
  | OperationMode.CBC iv => iv.1 < 2 ^ (8 * wb) ∧ iv.2 < 2 ^ (8 * wb)
  | OperationMode.CTR nc => nc.1 < 2 ^ (8 * wb) ∧ nc.2 < 2 ^ (8 * wb)

theorem padCount_zero (bs : Nat) : padCount 0 bs = bs := by
  unfold padCount
  simp

theorem cbcEncrypt_length (B : Nat) (S : List Nat) (rounds : Nat) :
    ∀ (blocks : List (Nat × Nat)) (prev : Nat × Nat),
    (cbcEncrypt B S rounds prev blocks).length = blocks.length := by
  intro blocks
  induction blocks with
  | nil => intro prev; rfl
  | cons b rest ih =>
    intro prev
    simp only [cbcEncrypt, List.length_cons]
    rw [ih]

theorem pkcs7_unpad_error_unique (buf : List Nat) (bs : Nat) :
    ∀ e, pkcs7 buf bs false = Except.error e → e = Reason.Padding := by
  intro e
  simp only [pkcs7]
  by_cases h1 : buf.length = 0 ∨ buf.length % bs ≠ 0
  · rw [if_pos h1]
    intro h
    exact (Except.error.injEq _ _ ▸ h).symm ▸ rfl
  · rw [if_neg h1]
    by_cases h2 : (buf.getLast?).getD 0 = 0 ∨ (buf.getLast?).getD 0 > bs
    · rw [if_pos h2]
      intro h
      exact (Except.error.injEq _ _ ▸ h).symm ▸ rfl
    · rw [if_neg h2]
      by_cases h3 : ¬ ((buf.drop (buf.length - (buf.getLast?).getD 0)).all
          (fun x => x == (buf.getLast?).getD 0) = true)
      · rw [if_pos h3]
        intro h
        exact (Except.error.injEq _ _ ▸ h).symm ▸ rfl
      · rw [if_neg h3]
        intro h
        exact absurd h (by simp)

theorem pkcs7_unpad_error_iff (buf : List Nat) (bs : Nat) :
    (∃ e, pkcs7 buf bs false = Except.error e) ↔
      (buf = [] ∨ buf.length % bs ≠ 0 ∨ (buf.getLast?).getD 0 = 0 ∨
        bs < (buf.getLast?).getD 0 ∨
        ¬ ((buf.drop (buf.length - (buf.getLast?).getD 0)).all
          (fun x => x == (buf.getLast?).getD 0) = true)) := by
  simp only [pkcs7]
  by_cases h1 : buf.length = 0 ∨ buf.length % bs ≠ 0
  · rw [if_pos h1]
    constructor
    · intro _
      rcases h1 with h | h
      · exact Or.inl (List.eq_nil_of_length_eq_zero h)
      · exact Or.inr (Or.inl h)
    · intro _
      exact ⟨Reason.Padding, rfl⟩
  · rw [if_neg h1]
    push_neg at h1
    by_cases h2 : (buf.getLast?).getD 0 = 0 ∨ (buf.getLast?).getD 0 > bs
    · rw [if_pos h2]
      constructor
      · intro _
        rcases h2 with h | h
        · exact Or.inr (Or.inr (Or.inl h))
        · exact Or.inr (Or.inr (Or.inr (Or.inl h)))
      · intro _
        exact ⟨Reason.Padding, rfl⟩
    · rw [if_neg h2]
      push_neg at h2
      by_cases h3 : ¬ ((buf.drop (buf.length - (buf.getLast?).getD 0)).all
          (fun x => x == (buf.getLast?).getD 0) = true)
      · rw [if_pos h3]
        constructor
        · intro _
          exact Or.inr (Or.inr (Or.inr (Or.inr h3)))
        · intro _
          exact ⟨Reason.Padding, rfl⟩
      · rw [if_neg h3]
        push_neg at h3
        constructor
        · intro ⟨e, he⟩
          exact absurd he (by simp)
        · intro hdisj
          exfalso
          have hne : buf ≠ [] := fun hc => h1.1 (by rw [hc]; rfl)
          rcases hdisj with h | h | h | h | h
          · exact hne h
          · exact h h1.2
          · exact h2.1 h
          · exact absurd h (by omega)
          · exact h h3

/-! ### Claim theorems -/

/-- Claim C1: for every supported word width (16/32/64/128 bits), every valid
key and round count, and each of the three operation modes, decrypting the
encryption of any byte message under the same mode parameters returns Ok of
the original message, including the zero-length message; for CTR the empty
message round-trips to an empty ciphertext, while for ECB/CBC the empty
message is padded to exactly one full block by encrypt and unpadded back to
empty by decrypt. -/
theorem claim_cipher_round_trip (wb : Nat)
    (hwb : wb = 2 ∨ wb = 4 ∨ wb = 8 ∨ wb = 16)
    (key : List Nat) (rounds : Nat) (_hne : key ≠ [])
    (_hklen : key.length ≤ 255)
    (_hrounds : rounds ≤ 255) (_hkey : ∀ b ∈ key, b < 256)
    (mode : OperationMode) (hmode : ModeValid wb mode)
    (pt : List Nat) (hpt : ∀ b ∈ pt, b < 256) :
    Except.bind (cipherEncrypt wb (expandKey wb key rounds) rounds pt mode)
      (fun ct => cipherDecrypt wb (expandKey wb key rounds) rounds ct mode)
      = Except.ok pt
    ∧ (pt = [] → ∀ ct,
        cipherEncrypt wb (expandKey wb key rounds) rounds pt mode
          = Except.ok ct →
        ct.length = (match mode with
          | OperationMode.CTR _ => 0
          | _ => 2 * wb)) := by
  have h0 : 0 < wb := by rcases hwb with h | h | h | h <;> omega
  have hbs : 2 * wb < 256 := by rcases hwb with h | h | h | h <;> omega
  constructor
  · cases mode with
    | ECB => exact cipher_roundtrip_ecb wb _ rounds pt h0 hbs hpt
    | CBC iv =>
      exact cipher_roundtrip_cbc wb _ rounds pt iv h0 hbs hmode.1 hmode.2 hpt
    | CTR nc => exact cipher_roundtrip_ctr wb _ rounds pt nc h0
  · intro hptnil ct hct
    subst hptnil
    cases mode with
    | ECB =>
      simp only [cipherEncrypt, pkcs7_pad_eq] at hct
      injection hct with h
      rw [← h, generateBytesStream_length]
      show 2 * wb * (List.map _ _).length = 2 * wb
      rw [List.length_map, generateBlocks_length wb h0]
      simp only [List.nil_append, List.length_replicate, List.length_nil,
        padCount_zero]
      rw [Nat.div_self (by omega), Nat.mul_one]
    | CBC iv =>
      simp only [cipherEncrypt, pkcs7_pad_eq] at hct
      injection hct with h
      rw [← h, generateBytesStream_length, cbcEncrypt_length,
        generateBlocks_length wb h0]
      simp only [List.nil_append, List.length_replicate, List.length_nil,
        padCount_zero]
      rw [Nat.div_self (by omega), Nat.mul_one]
    | CTR nc =>
      simp only [cipherEncrypt, ctrEncrypt_nil] at hct
      injection hct with h
      rw [← h]
      rfl

/-- Concrete instance of claim C1 at width 32/wb = 2, key [1], zero rounds,
ECB mode and the three-byte message [5, 6, 7]. -/
theorem claim_cipher_round_trip_witness :
    (2 = 2 ∨ 2 = 4 ∨ 2 = 8 ∨ 2 = 16)
    ∧ Except.bind (cipherEncrypt 2 (expandKey 2 [1] 0) 0 [5, 6, 7]
        OperationMode.ECB)
      (fun ct => cipherDecrypt 2 (expandKey 2 [1] 0) 0 ct OperationMode.ECB)
      = Except.ok [5, 6, 7] :=
  ⟨Or.inl rfl,
    (claim_cipher_round_trip 2 (Or.inl rfl) [1] 0 (by decide) (by decide)
      (by decide) (by decide) OperationMode.ECB trivial [5, 6, 7]
      (by decide)).1⟩

set_option maxRecDepth 40000

/-- Claim C2: the RC5-32/12/16 known-answer vectors.  Encrypting the zero
block under the key with big-endian byte representation 0x80..0 yields the
ciphertext with upper-hex little-endian serialization 8F681D7F285CDC2F, and
under key 0x40..0 yields DC14832CF4FE61A8; decrypting each ciphertext
returns the zero block. -/
theorem claim_known_answer_vectors :
    encodeUpper (toLEBytes 4 (encryptBlock (8 * 4)
        (expandKey 4 (128 :: List.replicate 15 0) 12) 12 (0, 0)).1
      ++ toLEBytes 4 (encryptBlock (8 * 4)
        (expandKey 4 (128 :: List.replicate 15 0) 12) 12 (0, 0)).2)
      = "8F681D7F285CDC2F"
    ∧ encodeUpper (toLEBytes 4 (encryptBlock (8 * 4)
        (expandKey 4 (64 :: List.replicate 15 0) 12) 12 (0, 0)).1
      ++ toLEBytes 4 (encryptBlock (8 * 4)
        (expandKey 4 (64 :: List.replicate 15 0) 12) 12 (0, 0)).2)
      = "DC14832CF4FE61A8"
    ∧ decryptBlock (8 * 4) (expandKey 4 (128 :: List.replicate 15 0) 12) 12
        (encryptBlock (8 * 4) (expandKey 4 (128 :: List.replicate 15 0) 12) 12
          (0, 0)) = (0, 0)
    ∧ decryptBlock (8 * 4) (expandKey 4 (64 :: List.replicate 15 0) 12) 12
        (encryptBlock (8 * 4) (expandKey 4 (64 :: List.replicate 15 0) 12) 12
          (0, 0)) = (0, 0) := by
  refine ⟨?_, ?_, ?_, ?_⟩ <;> rfl

/-- Claim C3: the single-block transform is invertible bit-for-bit for every
supported width, every valid key and every round count up to 255, including
zero rounds. -/
theorem claim_block_round_trip (wb : Nat)
    (hwb : wb = 2 ∨ wb = 4 ∨ wb = 8 ∨ wb = 16)
    (key : List Nat) (rounds : Nat) (_hne : key ≠ [])
    (_hklen : key.length ≤ 255)
    (_hrounds : rounds ≤ 255) (x : Nat × Nat)
    (h1 : x.1 < 2 ^ (8 * wb)) (h2 : x.2 < 2 ^ (8 * wb)) :
    decryptBlock (8 * wb) (expandKey wb key rounds) rounds
      (encryptBlock (8 * wb) (expandKey wb key rounds) rounds x) = x := by
  have h0 : 0 < 8 * wb := by rcases hwb with h | h | h | h <;> omega
  exact decryptBlock_encryptBlock _ _ _ _ h0 h1 h2

/-- Concrete instance of claim C3 at width 16, key [3], zero rounds. -/
theorem claim_block_round_trip_witness :
    (2 = 2 ∨ 2 = 4 ∨ 2 = 8 ∨ 2 = 16)
    ∧ decryptBlock (8 * 2) (expandKey 2 [3] 0) 0
        (encryptBlock (8 * 2) (expandKey 2 [3] 0) 0 (1, 2)) = (1, 2) :=
  ⟨Or.inl rfl,
    claim_block_round_trip 2 (Or.inl rfl) [3] 0 (by decide) (by decide)
      (by decide) (1, 2) (by decide) (by decide)⟩

/-- Claim C4: expand_key returns an S-table of exactly 2*(rounds+1) words,
and it equals the specification-level algorithm: key bytes packed
little-endian into ceil(max(len,1)/word_bytes) words, the table seeded with
S[0] = P and successive wrapping additions of Q, then exactly
3*max(table_size, key_word_count) mixing iterations with the stated update
equations, rotation amounts taken as word values modulo the bit width; the
S-table is the only output. -/
theorem claim_expand_key_spec (wb : Nat) (hwb : 0 < wb) (key : List Nat)
    (rounds : Nat) (hne : key ≠ []) (hkey : ∀ b ∈ key, b < 256) :
    (expandKey wb key rounds).length = 2 * (rounds + 1)
    ∧ expandKey wb key rounds = expandKeySpec wb key rounds :=
  ⟨expandKey_length wb key rounds,
    expandKey_eq_spec wb key rounds hwb hne hkey⟩

/-- Concrete instance of claim C4 at word width 32 bits with a five-byte
key, whose last packing chunk is partial. -/
theorem claim_expand_key_spec_witness :
    0 < 4 ∧ (expandKey 4 [1, 2, 3, 4, 5] 0).length = 2 * (0 + 1)
    ∧ expandKey 4 [1, 2, 3, 4, 5] 0 = expandKeySpec 4 [1, 2, 3, 4, 5] 0 :=
  ⟨by decide,
    (claim_expand_key_spec 4 (by decide) [1, 2, 3, 4, 5] 0 (by decide)
      (by decide)).1,
    (claim_expand_key_spec 4 (by decide) [1, 2, 3, 4, 5] 0 (by decide)
      (by decide)).2⟩

/-- Claim C5: the rc5-block pkcs7 unpad fails exactly on empty or misaligned
buffers, zero or oversized pad length, or inconsistent trailing pad bytes,
always with the single undifferentiated Padding error; but the rc5-rs copy
of pkcs7 reads buf.last().unwrap() before the emptiness check, so unpadding
an empty buffer panics there instead of returning the Padding error. -/
theorem claim_pkcs7_unpad_errors (buf : List Nat) (bs : Nat) (_hbs : 0 < bs) :
    ((∃ e, pkcs7 buf bs false = Except.error e) ↔
      (buf = [] ∨ buf.length % bs ≠ 0 ∨ (buf.getLast?).getD 0 = 0 ∨
        bs < (buf.getLast?).getD 0 ∨
        ¬ ((buf.drop (buf.length - (buf.getLast?).getD 0)).all
          (fun x => x == (buf.getLast?).getD 0) = true)))
    ∧ (∀ e, pkcs7 buf bs false = Except.error e → e = Reason.Padding)
    ∧ pkcs7 [] bs false = Except.error Reason.Padding
    ∧ pkcs7Rs [] bs false = none := by
  refine ⟨pkcs7_unpad_error_iff buf bs, pkcs7_unpad_error_unique buf bs,
    ?_, rfl⟩
  simp [pkcs7]

/-- Concrete instance of claim C5 at block size 8: the legacy rc5-rs unpad
panics on the empty buffer while the rc5-block unpad reports Padding. -/
theorem claim_pkcs7_unpad_errors_witness :
    0 < 8 ∧ pkcs7Rs [] 8 false = none
    ∧ pkcs7 [] 8 false = Except.error Reason.Padding :=
  ⟨by decide, (claim_pkcs7_unpad_errors [] 8 (by decide)).2.2.2,
    (claim_pkcs7_unpad_errors [] 8 (by decide)).2.2.1⟩

/-- Claim C6: pkcs7 pad appends pad_count bytes of value pad_count, where
pad_count is bs minus the length remainder when that remainder is positive
and a full block otherwise, returns the remainder, and unpadding the padded
buffer restores the original exactly. -/
theorem claim_pkcs7_pad_spec (buf : List Nat) (bs : Nat) (h : 0 < bs)
    (hbs : bs < 256) :
    pkcs7 buf bs true
      = Except.ok (buf ++ List.replicate (padCount buf.length bs)
          (padCount buf.length bs), buf.length % bs)
    ∧ padCount buf.length bs
      = (if buf.length % bs > 0 then bs - buf.length % bs else bs)
    ∧ pkcs7 (buf ++ List.replicate (padCount buf.length bs)
        (padCount buf.length bs)) bs false
      = Except.ok (buf, padCount buf.length bs) :=
  ⟨pkcs7_pad_eq_small buf bs h hbs, rfl, pkcs7_unpad_padded buf bs h⟩

/-- Concrete instances of claim C6: a 5-byte buffer at block size 8 gains
three bytes of 0x03; an 8-byte-aligned buffer gains a full block of 0x08;
unpadding restores the originals. -/
theorem claim_pkcs7_pad_spec_witness :
    0 < 8
    ∧ pkcs7 [72, 69, 76, 76, 79] 8 true
      = Except.ok ([72, 69, 76, 76, 79, 3, 3, 3], 5)
    ∧ pkcs7 [72, 69, 76, 76, 79, 3, 3, 3] 8 false
      = Except.ok ([72, 69, 76, 76, 79], 3)
    ∧ pkcs7 [1, 2, 3, 4, 5, 6, 7, 8] 8 true
      = Except.ok ([1, 2, 3, 4, 5, 6, 7, 8, 8, 8, 8, 8, 8, 8, 8, 8], 0) := by
  have h5 := claim_pkcs7_pad_spec [72, 69, 76, 76, 79] 8 (by decide) (by decide)
  have h8 := claim_pkcs7_pad_spec [1, 2, 3, 4, 5, 6, 7, 8] 8 (by decide)
    (by decide)
  refine ⟨by decide, ?_, ?_, ?_⟩
  · rw [h5.1]
    rfl
  · have h3 := h5.2.2
    rw [show padCount [72, 69, 76, 76, 79].length 8 = 3 from by decide] at h3
    rw [show ([72, 69, 76, 76, 79] ++ List.replicate 3 3)
      = [72, 69, 76, 76, 79, 3, 3, 3] from by decide] at h3
    exact h3
  · rw [h8.1]
    rfl

/-- Claim C7: parse_iv_from_hex rejects wrong-length IV hex strings with
IVinvalid, but parse_nonce_counter_from_hex tests the two decoded lengths
with a logical AND, so when only one of them is wrong no NonceInvalid error
is raised: a correct-length nonce with an empty counter reaches the unwrap
of last() on an empty block list and panics, and a correct-length nonce with
an oversized counter is silently accepted. -/
theorem claim_parse_hex_validation :
    parseIvFromHex 4 (String.toList "00000000")
      = some (Except.error (Reason.IVinvalid 8))
    ∧ parseNonceCounterFromHex 4 (String.toList "00000000")
        (String.toList "") = none
    ∧ parseNonceCounterFromHex 4 (String.toList "00000000")
        (String.toList "0000000000000000") = some (Except.ok (0, 0)) := by
  refine ⟨rfl, ?_, ?_⟩
  · show (if ([0, 0, 0, 0] : List Nat).length ≠ 4 ∧ ([] : List Nat).length ≠ 4
        then some (Except.error (Reason.NonceInvalid 4))
        else match (generateBlocks 4 (([0, 0, 0, 0] : List Nat) ++ [])).getLast? with
          | some blk => some (Except.ok blk)
          | none => none) = none
    rw [if_neg (by decide :
      ¬(([0, 0, 0, 0] : List Nat).length ≠ 4 ∧ ([] : List Nat).length ≠ 4))]
    rw [show (([0, 0, 0, 0] : List Nat) ++ []) = [0, 0, 0, 0] from rfl]
    rw [generateBlocks_short 4 [0, 0, 0, 0] (by decide)]
    rfl
  · show (if ([0, 0, 0, 0] : List Nat).length ≠ 4
          ∧ ([0, 0, 0, 0, 0, 0, 0, 0] : List Nat).length ≠ 4
        then some (Except.error (Reason.NonceInvalid 4))
        else match (generateBlocks 4 (([0, 0, 0, 0] : List Nat)
            ++ [0, 0, 0, 0, 0, 0, 0, 0])).getLast? with
          | some blk => some (Except.ok blk)
          | none => none) = some (Except.ok (0, 0))
    rw [if_neg (by decide : ¬(([0, 0, 0, 0] : List Nat).length ≠ 4
      ∧ ([0, 0, 0, 0, 0, 0, 0, 0] : List Nat).length ≠ 4))]
    rw [show (([0, 0, 0, 0] : List Nat) ++ [0, 0, 0, 0, 0, 0, 0, 0])
      = [0, 0, 0, 0, 0, 0, 0, 0, 0, 0, 0, 0] from rfl]
    rw [generateBlocks_step 4 _ (by decide) (by decide)]
    rw [generateBlocks_short 4 _ (by decide)]
    rfl

/-- Claim C8: in rc5-block, ctr_decrypt is the identical operation to
ctr_encrypt for every control block, counter block and input stream; in the
legacy root crate the block-level ctr_decrypt instead derives the keystream
by block-decrypting the counter, so there decryption differs from
encryption already on one block. -/
theorem claim_ctr_decrypt_identical :
    (∀ (wb : Nat) (S : List Nat) (rounds : Nat) (nc : Nat × Nat)
      (s : List Nat), ctrDecrypt wb S rounds nc s = ctrEncrypt wb S rounds nc s)
    ∧ ctrDecryptBlocksSrc (8 * 4) (expandKey 4 [1] 0) 0 (0, 0) [(0, 0)]
      ≠ ctrEncryptBlocksSrc (8 * 4) (expandKey 4 [1] 0) 0 (0, 0) [(0, 0)] := by
  constructor
  · intro wb S rounds nc s
    rfl
  · decide

/-- Claim C9: during CTR processing only the last word of the counter block
changes between keystream blocks: after k+1 blocks the state is the original
nonce word paired with the counter incremented by k+1 modulo the word
modulus (wrapping to zero at the maximum value), and the remaining
ciphertext is produced from that state. -/
theorem claim_ctr_counter_increment (wb : Nat) (S : List Nat) (rounds : Nat)
    (hwb : 0 < wb) (nc : Nat × Nat) (s : List Nat) (k : Nat) :
    (ctrEncrypt wb S rounds nc s).drop (2 * wb * (k + 1))
      = ctrEncrypt wb S rounds (nc.1, (nc.2 + (k + 1)) % 2 ^ (8 * wb))
        (s.drop (2 * wb * (k + 1))) :=
  ctrEncrypt_drop_iter wb S rounds hwb k nc s

/-- Concrete instance of claim C9 at width 16 with the counter at its
maximum value, exercising the wraparound to zero. -/
theorem claim_ctr_counter_increment_witness :
    0 < 2
    ∧ (ctrEncrypt 2 [] 0 (7, 65535) [1, 2, 3, 4, 5]).drop (2 * 2 * (0 + 1))
      = ctrEncrypt 2 [] 0 (7, (65535 + (0 + 1)) % 2 ^ (8 * 2))
        ([1, 2, 3, 4, 5].drop (2 * 2 * (0 + 1))) :=
  ⟨by decide,
    claim_ctr_counter_increment 2 [] 0 (by decide) (7, 65535) [1, 2, 3, 4, 5] 0⟩

/-- Claim C10: generate_blocks returns exactly floor(len / block_size)
blocks, silently discarding a trailing partial chunk, and consequently
Cipher::decrypt in ECB and CBC modes ignores trailing ciphertext bytes that
do not fill a whole block instead of rejecting them. -/
theorem claim_generate_blocks_truncates (wb : Nat) (hwb : 0 < wb) :
    (∀ s : List Nat, (generateBlocks wb s).length = s.length / (2 * wb))
    ∧ (∀ s junk : List Nat, s.length % (2 * wb) = 0 → junk.length < 2 * wb →
        generateBlocks wb (s ++ junk) = generateBlocks wb s)
    ∧ (∀ (S : List Nat) (rounds : Nat) (s junk : List Nat) (iv : Nat × Nat),
        s.length % (2 * wb) = 0 → junk.length < 2 * wb →
        cipherDecrypt wb S rounds (s ++ junk) OperationMode.ECB
          = cipherDecrypt wb S rounds s OperationMode.ECB
        ∧ cipherDecrypt wb S rounds (s ++ junk) (OperationMode.CBC iv)
          = cipherDecrypt wb S rounds s (OperationMode.CBC iv)) := by
  refine ⟨generateBlocks_length wb hwb, generateBlocks_append_junk wb hwb, ?_⟩
  intro S rounds s junk iv hs hj
  constructor
  · simp only [cipherDecrypt]
    rw [generateBlocks_append_junk wb hwb s junk hs hj]
  · simp only [cipherDecrypt]
    rw [generateBlocks_append_junk wb hwb s junk hs hj]

/-- Concrete instance of claim C10 at width 16: five bytes yield one block,
the fifth byte being discarded. -/
theorem claim_generate_blocks_truncates_witness :
    0 < 2
    ∧ (generateBlocks 2 [1, 2, 3, 4, 5]).length = [1, 2, 3, 4, 5].length / (2 * 2) :=
  ⟨by decide, (claim_generate_blocks_truncates 2 (by decide)).1 [1, 2, 3, 4, 5]⟩

end RC5
